import Mathlib

/-!
Verification of the entry aggregation and organization engine of the
social-listening repository: deduplication (`deduplicateEntries` in
`src/app/page.tsx`), cross-post detection (`findCrossPostDescriptions`),
tag filtering (`filteredEntries`), status classification
(`categorizeEntriesFromSource`), comment threading
(`groupCommentsUnderArticles`) from the feed-entries component, and the
persisted status map (`src/utils/entryState.ts`).

The TypeScript code is embedded shallowly:

* JavaScript strings are Lean `String`s; the JS falsy test on a string is
  the test for `""`; `String.prototype.includes` is infix search on the
  character list; `trim`/`toLowerCase` are modelled by ASCII character maps
  (all string constants compared by the engine are ASCII).
* A JS date string is modelled by `DateStr`: `empty` for a missing or empty
  string (falsy), `invalid s` for a non-empty string on which
  `new Date(s).getTime()` is `NaN`, and `valid t` for one that parses to
  the numeric instant `t`.  `NaN` is propagated as `Option.none`, and the
  JS `>` comparison on possibly-`NaN` numbers is `jsNumGt` (false whenever
  either side is `NaN`).
* A JS `Map` (insertion-ordered, keyed by string equality) is an
  association list; `Map.set`/object index assignment is `assocSet`
  (update in place, append new keys at the end), `Map.get` is
  `lookupAssoc`, `delete` is a filter.  A JS `Set` of strings is a
  duplicate-free list in insertion order (`addNew`).
* `Array.prototype.sort` with comparator `(a, b) => date b - date a` is a
  stable sort by descending date; it is modelled by `List.insertionSort`
  with the total transitive relation "date of the left argument is ≥ date
  of the right argument", which is stable in the same sense.
-/

/-! ## JavaScript string primitives -/

/-- JS `a || b` on strings: `a` unless it is falsy (the empty string). -/
def jsOrStr (a b : String) : String := if a = "" then b else a

/-- Check that a list starts with the given segment. -/
def startsWithSeg {α : Type} [DecidableEq α] : List α → List α → Bool
  | [], _ => true
  | _ :: _, [] => false
  | a :: as, b :: bs => if a = b then startsWithSeg as bs else false

/-- Check that the segment occurs contiguously somewhere in the list. -/
def hasSeg {α : Type} [DecidableEq α] (needle : List α) : List α → Bool
  | [] => startsWithSeg needle []
  | a :: tl => startsWithSeg needle (a :: tl) || hasSeg needle tl

/-- JS `haystack.includes(needle)` (substring search). -/
def jsIncludes (haystack needle : String) : Bool :=
  hasSeg needle.data haystack.data

/-- JS `String.prototype.toLowerCase`, restricted to the ASCII mapping
(the engine only compares ASCII constants). -/
def jsToLower (s : String) : String := ⟨s.data.map Char.toLower⟩

/-- Whitespace stripped by JS `String.prototype.trim` (ASCII part). -/
def isJsWhitespace (c : Char) : Bool :=
  c = ' ' || c = '\t' || c = '\n' || c = '\r'

/-- JS `String.prototype.trim`. -/
def jsTrim (s : String) : String :=
  ⟨((s.data.dropWhile isJsWhitespace).reverse.dropWhile isJsWhitespace).reverse⟩

/-! ## Dates

`DateStr` stands for the date-string-valued fields of an entry
(`publishedDate`, `rawDetails.lastCommentTime`); only the JS-observable
outcome of `new Date(s).getTime()` is kept. -/

/-- A JS date string, abstracted to its parse outcome. -/
inductive DateStr : Type where
  | empty : DateStr
  | invalid : String → DateStr
  | valid : Int → DateStr
deriving DecidableEq, Repr

/-- JS `a || b` where `a`, `b` are date strings (falsy = empty). -/
def jsOrDate (a b : DateStr) : DateStr :=
  match a with
  | .empty => b
  | _ => a

/-- The value of `new Date(s || 0).getTime()` used by `deduplicateEntries`:
the empty string falls back to the epoch, an unparsable string gives `NaN`
(modelled as `none`). -/
def dedupDate (d : DateStr) : Option Int :=
  match d with
  | .empty => some 0
  | .invalid _ => none
  | .valid t => some t

/-- JS `>` on numbers that may be `NaN`: false whenever either side is
`NaN`. -/
def jsNumGt (a b : Option Int) : Bool :=
  match a, b with
  | some x, some y => decide (y < x)
  | _, _ => false

/-! ## Data model (`RssEntry` from `src/utils/rssParser.ts`) -/

/-- The optional Open Graph enrichment attached to an entry. -/
structure OpenGraphData : Type where
  ogTitle : Option String
  ogDescription : Option String
  ogImage : Option String
  ogUrl : Option String
  ogType : Option String
  ogSiteName : Option String
deriving DecidableEq, Repr

/-- A normalized feed entry.  `lastCommentTime` stands for the only field
of the opaque `rawDetails` payload that the engine reads
(`rawDetails?.lastCommentTime`), with `DateStr.empty` when `rawDetails` or
the field is absent. -/
structure RssEntry : Type where
  id : String
  feedId : String
  feedTitle : String
  rawXml : String
  link : String
  title : String
  publishedDate : DateStr
  description : String
  og : Option OpenGraphData
  ogLoading : Bool
  lastCommentTime : DateStr
deriving DecidableEq, Repr

/-- JS `entry.og?.field || ""`. -/
def ogField (e : RssEntry) (f : OpenGraphData → Option String) : String :=
  match e.og with
  | none => ""
  | some og => (f og).getD ""

/-- `getEntryDate` from the feed-entries component: `lastCommentTime`
(when present) wins over `publishedDate`; a missing or unparsable date
resolves to 0. -/
def getEntryDate (entry : RssEntry) : Int :=
  match jsOrDate entry.lastCommentTime entry.publishedDate with
  | .empty => 0
  | .invalid _ => 0
  | .valid t => t

/-- `getEntryDescription` / the normalization used for cross-post keys:
`(entry.og?.ogDescription || entry.description || '').trim().toLowerCase()`. -/
def getEntryDescription (entry : RssEntry) : String :=
  jsToLower (jsTrim (jsOrStr (ogField entry (·.ogDescription)) entry.description))

/-! ## Association lists (JS `Map` / plain-object model) -/

/-- JS `Map.prototype.get` / object indexing: first binding of the key. -/
def lookupAssoc {β : Type} (m : List (String × β)) (k : String) : Option β :=
  match m with
  | [] => none
  | p :: ps => if p.1 = k then some p.2 else lookupAssoc ps k

/-- JS `Map.prototype.set` / object index assignment: overwrite the
existing binding in place, or append a new binding at the end. -/
def assocSet {β : Type} (m : List (String × β)) (k : String) (v : β) :
    List (String × β) :=
  if (lookupAssoc m k).isSome then
    m.map (fun p => if p.1 = k then (k, v) else p)
  else
    m ++ [(k, v)]

/-- JS `Set.prototype.add` on a string set kept in insertion order. -/
def addNew (l : List String) (v : String) : List String :=
  if v ∈ l then l else l ++ [v]

theorem lookupAssoc_append {β : Type} (m₁ m₂ : List (String × β)) (k : String) :
    lookupAssoc (m₁ ++ m₂) k = (lookupAssoc m₁ k).or (lookupAssoc m₂ k) := by
  induction m₁ with
  | nil => simp [lookupAssoc]
  | cons p ps ih =>
      by_cases h : p.1 = k <;> simp [lookupAssoc, h, ih]

theorem lookupAssoc_eq_none_of_not_mem_keys {β : Type}
    {m : List (String × β)} {k : String} (h : k ∉ m.map Prod.fst) :
    lookupAssoc m k = none := by
  induction m with
  | nil => rfl
  | cons p ps ih =>
      simp only [List.map_cons, List.mem_cons] at h
      push_neg at h
      simp [lookupAssoc, Ne.symm h.1, ih h.2]

theorem lookupAssoc_overwrite_same {β : Type} (m : List (String × β)) (k : String) (v : β) :
    lookupAssoc (m.map (fun p => if p.1 = k then (k, v) else p)) k =
      if (lookupAssoc m k).isSome then some v else none := by
  induction m with
  | nil => rfl
  | cons p ps ih =>
      by_cases h1 : p.1 = k
      · simp [lookupAssoc, h1]
      · simp [lookupAssoc, h1, ih]

theorem lookupAssoc_overwrite_other {β : Type} (m : List (String × β)) {k k' : String} (v : β)
    (hkk : k ≠ k') :
    lookupAssoc (m.map (fun p => if p.1 = k then (k, v) else p)) k' =
      lookupAssoc m k' := by
  induction m with
  | nil => rfl
  | cons p ps ih =>
      by_cases h1 : p.1 = k
      · simp [lookupAssoc, h1, hkk, Ne.symm hkk, ih]
      · by_cases h2 : p.1 = k' <;> simp [lookupAssoc, h1, h2, Ne.symm hkk, ih]

theorem lookupAssoc_assocSet {β : Type} (m : List (String × β)) (k k' : String) (v : β) :
    lookupAssoc (assocSet m k v) k' =
      if k = k' then some v else lookupAssoc m k' := by
  unfold assocSet
  by_cases hs : (lookupAssoc m k).isSome
  · simp only [hs, if_true]
    by_cases h2 : k = k'
    · subst h2
      simp [lookupAssoc_overwrite_same, hs]
    · simp [lookupAssoc_overwrite_other m v h2, h2]
  · simp only [Bool.not_eq_true] at hs
    simp only [hs, Bool.false_eq_true, if_false]
    rw [lookupAssoc_append]
    by_cases h2 : k = k'
    · subst h2
      cases ho : lookupAssoc m k with
      | some w => rw [ho] at hs; cases hs
      | none => simp [ho, lookupAssoc]
    · have : lookupAssoc [(k, v)] k' = none := by simp [lookupAssoc, h2]
      simp [this, h2]

theorem overwrite_keys {β : Type} (m : List (String × β)) (k : String) (v : β) :
    (m.map (fun p => if p.1 = k then (k, v) else p)).map Prod.fst = m.map Prod.fst := by
  rw [List.map_map]
  apply List.map_congr_left
  intro q _
  by_cases hq : q.1 = k <;> simp [hq, Function.comp]

theorem assocSet_keys_of_mem {β : Type} (m : List (String × β)) (k : String) (v : β)
    (h : (lookupAssoc m k).isSome) :
    (assocSet m k v).map Prod.fst = m.map Prod.fst := by
  unfold assocSet
  simp only [h, if_true]
  exact overwrite_keys m k v

theorem assocSet_keys_of_not_mem {β : Type} (m : List (String × β)) (k : String) (v : β)
    (h : ¬ (lookupAssoc m k).isSome) :
    (assocSet m k v).map Prod.fst = m.map Prod.fst ++ [k] := by
  unfold assocSet
  simp only [Bool.not_eq_true] at h
  simp [h]

theorem lookupAssoc_isSome_of_mem {β : Type} {m : List (String × β)} {p : String × β}
    (h : p ∈ m) : (lookupAssoc m p.1).isSome = true := by
  induction m with
  | nil => cases h
  | cons q qs ih =>
      cases h with
      | head => simp [lookupAssoc]
      | tail _ hmem => by_cases hq : q.1 = p.1 <;> simp [lookupAssoc, hq, ih hmem]

theorem mem_assocSet {β : Type} {m : List (String × β)} {k : String} {v : β} {p : String × β}
    (h : p ∈ assocSet m k v) : p = (k, v) ∨ (p ∈ m ∧ p.1 ≠ k) := by
  unfold assocSet at h
  by_cases hs : (lookupAssoc m k).isSome
  · simp only [hs, if_true, List.mem_map] at h
    obtain ⟨q, hq, hqe⟩ := h
    by_cases h1 : q.1 = k
    · left
      simp only [h1, if_true] at hqe
      exact hqe.symm
    · right
      simp only [h1, if_false] at hqe
      subst hqe
      exact ⟨hq, h1⟩
  · simp only [Bool.not_eq_true] at hs
    simp only [hs, Bool.false_eq_true, if_false, List.mem_append, List.mem_singleton] at h
    rcases h with h | h
    · refine Or.inr ⟨h, fun h1 => ?_⟩
      have := lookupAssoc_isSome_of_mem h
      rw [h1, hs] at this
      cases this
    · exact Or.inl h

theorem lookupAssoc_isSome_iff_mem_keys {β : Type} (m : List (String × β)) (k : String) :
    (lookupAssoc m k).isSome ↔ k ∈ m.map Prod.fst := by
  induction m with
  | nil => simp [lookupAssoc]
  | cons p ps ih =>
      by_cases h : p.1 = k
      · simp [lookupAssoc, h]
      · simp [lookupAssoc, h, ih, Ne.symm h]

theorem assocSet_nodup_keys {β : Type} (m : List (String × β)) (k : String) (v : β)
    (h : (m.map Prod.fst).Nodup) : ((assocSet m k v).map Prod.fst).Nodup := by
  by_cases hs : (lookupAssoc m k).isSome
  · rw [assocSet_keys_of_mem m k v hs]; exact h
  · rw [assocSet_keys_of_not_mem m k v hs]
    rw [List.nodup_append]
    refine ⟨h, List.nodup_singleton k, ?_⟩
    intro a ha hb
    simp only [List.mem_singleton] at hb
    subst hb
    exact hs ((lookupAssoc_isSome_iff_mem_keys m a).mpr ha)

theorem lookupAssoc_mem {β : Type} {m : List (String × β)} {k : String} {v : β}
    (h : lookupAssoc m k = some v) : (k, v) ∈ m := by
  induction m with
  | nil => cases h
  | cons p ps ih =>
      by_cases h1 : p.1 = k
      · simp only [lookupAssoc, h1, if_true, Option.some.injEq] at h
        have hp : p = (k, v) := Prod.ext h1 h
        rw [← hp]
        exact List.mem_cons_self p ps
      · simp only [lookupAssoc, h1, if_false] at h
        exact List.mem_cons_of_mem _ (ih h)

/-! ## Deduplicator (`deduplicateEntries` in `src/app/page.tsx`) -/

/-- The record stored when a newer duplicate replaces an existing one:
`{...entry, og: entry.og || existing.og, ogLoading: entry.og ? false :
existing.ogLoading}`. -/
def mergeDuplicate (existing entry : RssEntry) : RssEntry :=
  { entry with
    og := match entry.og with
          | some og => some og
          | none => existing.og,
    ogLoading := if entry.og.isSome then false else existing.ogLoading }

/-- One iteration of the loop of `deduplicateEntries`: entries without a
URL are skipped; a new URL is inserted; an existing URL is replaced only
when the incoming date is strictly greater (`NaN` compares false). -/
def dedupStep (urlMap : List (String × RssEntry)) (entry : RssEntry) :
    List (String × RssEntry) :=
  if entry.link = "" then urlMap
  else
    match lookupAssoc urlMap entry.link with
    | none => assocSet urlMap entry.link entry
    | some existing =>
        if jsNumGt (dedupDate entry.publishedDate) (dedupDate existing.publishedDate) then
          assocSet urlMap entry.link (mergeDuplicate existing entry)
        else urlMap

/-- `deduplicateEntries`: fold the entries into a URL-keyed map and return
the values in key-insertion order (`Array.from(urlMap.values())`). -/
def deduplicateEntries (entries : List RssEntry) : List RssEntry :=
  (entries.foldl dedupStep []).map Prod.snd

/-- Internal well-formedness of the URL map: every binding's value carries
its key as link, the key is a real URL, and keys are unique. -/
def DedupInv (m : List (String × RssEntry)) : Prop :=
  (∀ p ∈ m, p.2.link = p.1 ∧ p.1 ≠ "") ∧ (m.map Prod.fst).Nodup

theorem mergeDuplicate_link (existing entry : RssEntry) :
    (mergeDuplicate existing entry).link = entry.link := rfl

theorem dedupStep_inv {m : List (String × RssEntry)} (entry : RssEntry)
    (h : DedupInv m) : DedupInv (dedupStep m entry) := by
  unfold dedupStep
  by_cases hl : entry.link = ""
  · simpa [hl] using h
  · simp only [hl, if_false]
    cases ho : lookupAssoc m entry.link with
    | none =>
        constructor
        · intro p hp
          rcases mem_assocSet hp with h1 | h1
          · subst h1; exact ⟨rfl, hl⟩
          · exact h.1 p h1.1
        · exact assocSet_nodup_keys m entry.link entry h.2
    | some existing =>
        by_cases hgt : jsNumGt (dedupDate entry.publishedDate) (dedupDate existing.publishedDate)
        · simp only [hgt, if_true]
          constructor
          · intro p hp
            rcases mem_assocSet hp with h1 | h1
            · subst h1; exact ⟨mergeDuplicate_link existing entry, hl⟩
            · exact h.1 p h1.1
          · exact assocSet_nodup_keys m entry.link _ h.2
        · simpa [hgt] using h

theorem dedup_foldl_inv (l : List RssEntry) {m : List (String × RssEntry)}
    (h : DedupInv m) : DedupInv (l.foldl dedupStep m) := by
  induction l generalizing m with
  | nil => exact h
  | cons e es ih => exact ih (dedupStep_inv e h)

theorem deduplicateEntries_links_nodup (entries : List RssEntry) :
    ((deduplicateEntries entries).map (fun e => e.link)).Nodup ∧
      ∀ e ∈ deduplicateEntries entries, e.link ≠ "" := by
  have hinv : DedupInv (entries.foldl dedupStep []) :=
    dedup_foldl_inv entries ⟨by simp, by simp⟩
  constructor
  · have : (deduplicateEntries entries).map (fun e => e.link) =
        (entries.foldl dedupStep []).map Prod.fst := by
      unfold deduplicateEntries
      rw [List.map_map]
      apply List.map_congr_left
      intro p hp
      exact (hinv.1 p hp).1
    rw [this]
    exact hinv.2
  · intro e he
    unfold deduplicateEntries at he
    rw [List.mem_map] at he
    obtain ⟨p, hp, hpe⟩ := he
    rw [← hpe]
    have := hinv.1 p hp
    rw [this.1]
    exact this.2

theorem dedup_foldl_fresh (l : List RssEntry) (m : List (String × RssEntry))
    (hn : (l.map (fun e => e.link)).Nodup)
    (hne : ∀ e ∈ l, e.link ≠ "")
    (hdisj : ∀ e ∈ l, (lookupAssoc m e.link).isSome = false) :
    l.foldl dedupStep m = m ++ l.map (fun e => (e.link, e)) := by
  induction l generalizing m with
  | nil => simp
  | cons e es ih =>
      have hel : e.link ≠ "" := hne e (List.mem_cons_self e es)
      have hlook : lookupAssoc m e.link = none := by
        have := hdisj e (List.mem_cons_self e es)
        cases ho : lookupAssoc m e.link with
        | none => rfl
        | some w => rw [ho] at this; cases this
      have hstep : dedupStep m e = m ++ [(e.link, e)] := by
        unfold dedupStep assocSet
        simp [hel, hlook]
      rw [List.foldl_cons, hstep]
      rw [List.map_cons, List.nodup_cons] at hn
      have hres := ih (m ++ [(e.link, e)]) hn.2 (fun x hx => hne x (List.mem_cons_of_mem e hx))
        (fun x hx => by
          rw [lookupAssoc_append]
          have h1 : lookupAssoc m x.link = none := by
            have := hdisj x (List.mem_cons_of_mem e hx)
            cases ho : lookupAssoc m x.link with
            | none => rfl
            | some w => rw [ho] at this; cases this
          have h2 : lookupAssoc [(e.link, e)] x.link = none := by
            have hxe : e.link ≠ x.link := by
              intro hcontra
              exact hn.1 (hcontra ▸ (List.mem_map.mpr ⟨x, hx, rfl⟩))
            simp [lookupAssoc, hxe]
          simp [h1, h2])
      rw [hres, List.append_assoc]
      rfl

/-- C8: the Deduplicator is idempotent. -/
theorem deduplicateEntries_idem (entries : List RssEntry) :
    deduplicateEntries (deduplicateEntries entries) = deduplicateEntries entries := by
  obtain ⟨hnd, hne⟩ := deduplicateEntries_links_nodup entries
  have h := dedup_foldl_fresh (deduplicateEntries entries) [] hnd hne (by
    intro e _
    rfl)
  show ((deduplicateEntries entries).foldl dedupStep []).map Prod.snd = _
  rw [h]
  rw [List.nil_append, List.map_map]
  rw [show (Prod.snd ∘ fun e : RssEntry => (e.link, e)) = id from rfl, List.map_id]

/-! ## Concrete entries used in counterexamples and witnesses -/

/-- A sample enrichment payload. -/
def sampleOg : OpenGraphData :=
  { ogTitle := some "Og Title", ogDescription := some "Og Description",
    ogImage := none, ogUrl := none, ogType := none, ogSiteName := none }

/-- Duplicate copy with the larger timestamp and no enrichment. -/
def entryNewerPlain : RssEntry :=
  { id := "L", feedId := "f1", feedTitle := "Feed One", rawXml := "",
    link := "https://example.com/article", title := "newer copy",
    publishedDate := .valid 20, description := "body", og := none,
    ogLoading := true, lastCommentTime := .empty }

/-- Duplicate copy with the smaller timestamp, carrying enrichment. -/
def entryOlderEnriched : RssEntry :=
  { id := "L", feedId := "f1", feedTitle := "Feed One", rawXml := "",
    link := "https://example.com/article", title := "older copy",
    publishedDate := .valid 10, description := "body", og := some sampleOg,
    ogLoading := false, lastCommentTime := .empty }

/-- C4 counterexample: when the t=20 copy comes first, the surviving
record for the link keeps `og = none` — the enrichment of the t=10 copy is
NOT carried over (the `else if (existing.og && !entry.og)` branch of
`deduplicateEntries` has an empty body), contradicting the claim that the
merged record always carries the t=10 copy's enrichment. -/
theorem dedup_scenarioD_cex :
    deduplicateEntries [entryNewerPlain, entryOlderEnriched] = [entryNewerPlain] ∧
      entryNewerPlain.og = none ∧ entryOlderEnriched.og = some sampleOg := by
  refine ⟨?_, rfl, rfl⟩
  rfl

/-- C4 (amended): when the t=10 enriched copy precedes the t=20 plain copy
(so the newer record replaces an existing one), the merged record has
timestamp 20 and the enrichment of the t=10 copy. -/
theorem dedup_scenarioD (e1 e2 : RssEntry) (g : OpenGraphData)
    (hlink : e1.link = e2.link) (hne : e2.link ≠ "")
    (h1 : e1.publishedDate = .valid 10) (h2 : e2.publishedDate = .valid 20)
    (hog1 : e1.og = some g) (hog2 : e2.og = none) :
    deduplicateEntries [e1, e2] =
      [{ e2 with og := some g, ogLoading := e1.ogLoading }] := by
  have hne1 : e1.link ≠ "" := by rw [hlink]; exact hne
  have hmerge : mergeDuplicate e1 e2 = { e2 with og := some g, ogLoading := e1.ogLoading } := by
    unfold mergeDuplicate
    rw [hog2, hog1]
    rfl
  have hlook : lookupAssoc [(e1.link, e1)] e2.link = some e1 := by
    simp [lookupAssoc, hlink]
  have hstep1 : dedupStep [] e1 = [(e1.link, e1)] := by
    unfold dedupStep assocSet
    simp [hne1, lookupAssoc]
  have hgt : jsNumGt (dedupDate e2.publishedDate) (dedupDate e1.publishedDate) = true := by
    rw [h1, h2]
    rfl
  have hstep2 : dedupStep [(e1.link, e1)] e2 = [(e2.link, mergeDuplicate e1 e2)] := by
    unfold dedupStep
    rw [if_neg hne, hlook]
    simp only [hgt, if_true]
    unfold assocSet
    rw [hlook]
    simp [hlink]
  unfold deduplicateEntries
  rw [List.foldl_cons, List.foldl_cons, List.foldl_nil, hstep1, hstep2]
  rw [List.map_cons, List.map_nil, hmerge]

/-- C4 witness: the amended statement holds on the concrete scenario-D
pair given in the enriched-copy-first order. -/
theorem dedup_scenarioD_witness :
    deduplicateEntries [entryOlderEnriched, entryNewerPlain] =
      [{ entryNewerPlain with og := some sampleOg, ogLoading := entryOlderEnriched.ogLoading }] :=
  dedup_scenarioD entryOlderEnriched entryNewerPlain sampleOg rfl (by decide) rfl rfl rfl rfl

/-! ## C3: order-(in)dependence of the Deduplicator

The merged record kept for a URL is exposed through `dedupLookup`; the
fold is first localized to the sublist of entries sharing that URL
(`pickMerge`), whose core fields behave like a plain "keep the strictly
newer record" fold (`pickNewest`). -/

/-- The core fields of an entry: everything except the enrichment
carry-over fields (`og`, `ogLoading`) that `mergeDuplicate` rewrites. -/
structure CoreEntry : Type where
  id : String
  feedId : String
  feedTitle : String
  rawXml : String
  link : String
  title : String
  publishedDate : DateStr
  description : String
  lastCommentTime : DateStr
deriving DecidableEq, Repr

/-- Project an entry to its core fields. -/
def coreOf (e : RssEntry) : CoreEntry :=
  { id := e.id, feedId := e.feedId, feedTitle := e.feedTitle, rawXml := e.rawXml,
    link := e.link, title := e.title, publishedDate := e.publishedDate,
    description := e.description, lastCommentTime := e.lastCommentTime }

/-- The merged record the Deduplicator keeps for a given URL. -/
def dedupLookup (entries : List RssEntry) (url : String) : Option RssEntry :=
  lookupAssoc (entries.foldl dedupStep []) url

/-- The action of one duplicate on the record kept for its own URL. -/
def pickMerge (cur : Option RssEntry) (e : RssEntry) : Option RssEntry :=
  match cur with
  | none => some e
  | some existing =>
      if jsNumGt (dedupDate e.publishedDate) (dedupDate existing.publishedDate) then
        some (mergeDuplicate existing e)
      else some existing

/-- Like `pickMerge` but keeping the newer record unchanged (no enrichment
carry-over); it agrees with `pickMerge` on core fields. -/
def pickNewest (cur : Option RssEntry) (e : RssEntry) : Option RssEntry :=
  match cur with
  | none => some e
  | some existing =>
      if jsNumGt (dedupDate e.publishedDate) (dedupDate existing.publishedDate) then some e
      else some existing

theorem coreOf_mergeDuplicate (existing e : RssEntry) :
    coreOf (mergeDuplicate existing e) = coreOf e := rfl

theorem dedup_lookup_localize (l : List RssEntry) (m : List (String × RssEntry))
    (url : String) (hurl : url ≠ "") :
    lookupAssoc (l.foldl dedupStep m) url =
      (l.filter (fun e => decide (e.link = url))).foldl pickMerge (lookupAssoc m url) := by
  induction l generalizing m with
  | nil => rfl
  | cons e es ih =>
      rw [List.foldl_cons, List.filter_cons]
      by_cases hl : e.link = ""
      · have hne : ¬ (e.link = url) := fun h => hurl (h.symm.trans hl)
        have hstep : dedupStep m e = m := by
          unfold dedupStep
          simp [hl]
        rw [hstep, ih m]
        simp [hne]
      · by_cases hlu : e.link = url
        · simp only [hlu, decide_True, if_true, List.foldl_cons]
          cases ho : lookupAssoc m e.link with
          | none =>
              have hstep : dedupStep m e = assocSet m e.link e := by
                unfold dedupStep
                simp [hl, ho]
              rw [hstep, ih]
              have hl1 : lookupAssoc (assocSet m e.link e) url = some e := by
                rw [lookupAssoc_assocSet]
                simp [hlu]
              have hl2 : lookupAssoc m url = none := by rw [← hlu]; exact ho
              rw [hl1, hl2]
              rfl
          | some existing =>
              by_cases hgt :
                  jsNumGt (dedupDate e.publishedDate) (dedupDate existing.publishedDate) = true
              · have hstep : dedupStep m e = assocSet m e.link (mergeDuplicate existing e) := by
                  unfold dedupStep
                  simp [hl, ho, hgt]
                rw [hstep, ih]
                have hl1 : lookupAssoc (assocSet m e.link (mergeDuplicate existing e)) url =
                    some (mergeDuplicate existing e) := by
                  rw [lookupAssoc_assocSet]
                  simp [hlu]
                have hl2 : lookupAssoc m url = some existing := by rw [← hlu]; exact ho
                rw [hl1, hl2]
                have hp : pickMerge (some existing) e = some (mergeDuplicate existing e) := by
                  simp [pickMerge, hgt]
                rw [hp]
              · simp only [Bool.not_eq_true] at hgt
                have hstep : dedupStep m e = m := by
                  unfold dedupStep
                  simp [hl, ho, hgt]
                rw [hstep, ih]
                have hl2 : lookupAssoc m url = some existing := by rw [← hlu]; exact ho
                rw [hl2]
                have hp : pickMerge (some existing) e = some existing := by
                  simp [pickMerge, hgt]
                rw [hp]
        · simp only [hlu, decide_False, if_false]
          have hpres : lookupAssoc (dedupStep m e) url = lookupAssoc m url := by
            unfold dedupStep
            by_cases h0 : e.link = ""
            · simp [h0]
            · simp only [h0, if_false]
              cases ho : lookupAssoc m e.link with
              | none =>
                  rw [lookupAssoc_assocSet]
                  simp [hlu]
              | some existing =>
                  by_cases hgt :
                      jsNumGt (dedupDate e.publishedDate) (dedupDate existing.publishedDate) = true
                  · simp only [hgt, if_true]
                    rw [lookupAssoc_assocSet]
                    simp [hlu]
                  · simp only [Bool.not_eq_true] at hgt
                    simp [hgt]
          rw [ih, hpres]
          simp [hlu]

theorem foldl_pickMerge_core (l : List RssEntry) (c₁ c₂ : Option RssEntry)
    (h : c₁.map coreOf = c₂.map coreOf) :
    (l.foldl pickMerge c₁).map coreOf = (l.foldl pickNewest c₂).map coreOf := by
  induction l generalizing c₁ c₂ with
  | nil => exact h
  | cons e es ih =>
      rw [List.foldl_cons, List.foldl_cons]
      apply ih
      cases c₁ with
      | none =>
          cases c₂ with
          | none => rfl
          | some x => simp [Option.map] at h
      | some ex₁ =>
          cases c₂ with
          | none => simp [Option.map] at h
          | some ex₂ =>
              simp only [Option.map_some'] at h
              have hcore : coreOf ex₁ = coreOf ex₂ := by
                injection h
              have hpd : ex₁.publishedDate = ex₂.publishedDate :=
                congrArg CoreEntry.publishedDate hcore
              have hgtiff : jsNumGt (dedupDate e.publishedDate) (dedupDate ex₁.publishedDate) =
                  jsNumGt (dedupDate e.publishedDate) (dedupDate ex₂.publishedDate) := by
                rw [hpd]
              by_cases hgt :
                  jsNumGt (dedupDate e.publishedDate) (dedupDate ex₂.publishedDate) = true
              · have h1 : pickMerge (some ex₁) e = some (mergeDuplicate ex₁ e) := by
                  simp [pickMerge, hgtiff, hgt]
                have h2 : pickNewest (some ex₂) e = some e := by
                  simp [pickNewest, hgt]
                rw [h1, h2, Option.map_some', Option.map_some', coreOf_mergeDuplicate]
              · simp only [Bool.not_eq_true] at hgt
                have h1 : pickMerge (some ex₁) e = some ex₁ := by
                  simp [pickMerge, hgtiff, hgt]
                have h2 : pickNewest (some ex₂) e = some ex₂ := by
                  simp [pickNewest, hgt]
                rw [h1, h2, Option.map_some', Option.map_some', hcore]

theorem jsNumGt_true {x y : Int} (h : jsNumGt (some x) (some y) = true) : y < x := by
  unfold jsNumGt at h
  exact of_decide_eq_true h

theorem jsNumGt_false {x y : Int} (h : jsNumGt (some x) (some y) = false) : x ≤ y := by
  unfold jsNumGt at h
  have := of_decide_eq_false h
  omega

theorem foldl_pickNewest_max (l : List RssEntry) (a : RssEntry)
    (hpar : ∀ e ∈ l, (dedupDate e.publishedDate).isSome = true)
    (hpa : (dedupDate a.publishedDate).isSome = true) :
    ∃ r, l.foldl pickNewest (some a) = some r ∧ r ∈ a :: l ∧
      ∀ e ∈ a :: l, ∀ te tr : Int, dedupDate e.publishedDate = some te →
        dedupDate r.publishedDate = some tr → te ≤ tr := by
  induction l generalizing a with
  | nil =>
      refine ⟨a, rfl, List.mem_cons_self a [], ?_⟩
      intro e he te tr hte htr
      rcases List.mem_singleton.mp he with rfl
      rw [hte] at htr
      simp at htr
      omega
  | cons e es ih =>
      rw [List.foldl_cons]
      obtain ⟨ta, hta⟩ := Option.isSome_iff_exists.mp hpa
      obtain ⟨te0, hte0⟩ := Option.isSome_iff_exists.mp (hpar e (List.mem_cons_self e es))
      have hpar' : ∀ x ∈ es, (dedupDate x.publishedDate).isSome = true :=
        fun x hx => hpar x (List.mem_cons_of_mem e hx)
      by_cases hgt : jsNumGt (dedupDate e.publishedDate) (dedupDate a.publishedDate) = true
      · have hstep : pickNewest (some a) e = some e := by
          simp [pickNewest, hgt]
        rw [hstep]
        obtain ⟨r, hr, hrm, hbound⟩ := ih e hpar' (hpar e (List.mem_cons_self e es))
        refine ⟨r, hr, ?_, ?_⟩
        · rcases List.mem_cons.mp hrm with h | h
          · rw [h]; exact List.mem_cons_of_mem a (List.mem_cons_self e es)
          · exact List.mem_cons_of_mem a (List.mem_cons_of_mem e h)
        · intro x hx tx tr htx htr
          rcases List.mem_cons.mp hx with h | hx
          · subst h
            rw [hta] at htx
            have htx' : tx = ta := by
              simpa using htx.symm
            subst htx'
            have h1 : tx < te0 := by
              rw [hte0, hta] at hgt
              exact jsNumGt_true hgt
            have h2 : te0 ≤ tr := hbound e (List.mem_cons_self e es) te0 tr hte0 htr
            omega
          · exact hbound x hx tx tr htx htr
      · simp only [Bool.not_eq_true] at hgt
        have hstep : pickNewest (some a) e = some a := by
          simp [pickNewest, hgt]
        rw [hstep]
        obtain ⟨r, hr, hrm, hbound⟩ := ih a hpar' hpa
        refine ⟨r, hr, ?_, ?_⟩
        · rcases List.mem_cons.mp hrm with h | h
          · rw [h]; exact List.mem_cons_self a (e :: es)
          · exact List.mem_cons_of_mem a (List.mem_cons_of_mem e h)
        · intro x hx tx tr htx htr
          rcases List.mem_cons.mp hx with h | hx
          · subst h
            exact hbound x (List.mem_cons_self x es) tx tr htx htr
          · rcases List.mem_cons.mp hx with h | hx
            · subst h
              rw [hte0] at htx
              have htx' : tx = te0 := by
                simpa using htx.symm
              subst htx'
              have h1 : tx ≤ ta := by
                rw [hte0, hta] at hgt
                exact jsNumGt_false hgt
              have h2 : ta ≤ tr := hbound a (List.mem_cons_self a es) ta tr hta htr
              omega
            · exact hbound x (List.mem_cons_of_mem a hx) tx tr htx htr

theorem foldl_pickNewest_perm (l₁ l₂ : List RssEntry) (hperm : l₁.Perm l₂)
    (hpar : ∀ e ∈ l₁, (dedupDate e.publishedDate).isSome = true)
    (hnd : (l₁.map (fun e => dedupDate e.publishedDate)).Nodup) :
    l₁.foldl pickNewest none = l₂.foldl pickNewest none := by
  cases l₁ with
  | nil =>
      have : l₂ = [] := (hperm.symm).eq_nil
      rw [this]
  | cons a as =>
      cases l₂ with
      | nil => exact absurd hperm.symm (by simp)
      | cons b bs =>
          rw [List.foldl_cons, List.foldl_cons]
          have hsa : pickNewest none a = some a := rfl
          have hsb : pickNewest none b = some b := rfl
          rw [hsa, hsb]
          have hpar₂ : ∀ e ∈ b :: bs, (dedupDate e.publishedDate).isSome = true :=
            fun e he => hpar e (hperm.mem_iff.mpr he)
          obtain ⟨r₁, hr₁, hm₁, hb₁⟩ :=
            foldl_pickNewest_max as a (fun e he => hpar e (List.mem_cons_of_mem a he))
              (hpar a (List.mem_cons_self a as))
          obtain ⟨r₂, hr₂, hm₂, hb₂⟩ :=
            foldl_pickNewest_max bs b (fun e he => hpar₂ e (List.mem_cons_of_mem b he))
              (hpar₂ b (List.mem_cons_self b bs))
          rw [hr₁, hr₂]
          obtain ⟨t₁, ht₁⟩ := Option.isSome_iff_exists.mp (hpar r₁ hm₁)
          have hm₂' : r₂ ∈ a :: as := hperm.mem_iff.mpr hm₂
          obtain ⟨t₂, ht₂⟩ := Option.isSome_iff_exists.mp (hpar r₂ hm₂')
          have hle₁ : t₂ ≤ t₁ := hb₁ r₂ hm₂' t₂ t₁ ht₂ ht₁
          have hle₂ : t₁ ≤ t₂ := hb₂ r₁ (hperm.mem_iff.mp hm₁) t₁ t₂ ht₁ ht₂
          have htt : t₁ = t₂ := le_antisymm hle₂ hle₁
          have hdd : dedupDate r₁.publishedDate = dedupDate r₂.publishedDate := by
            rw [ht₁, ht₂, htt]
          have hinj := List.inj_on_of_nodup_map hnd
          rw [hinj hm₁ hm₂' hdd]

/-- Tie pair: two duplicates with equal parsable timestamps but
different titles. -/
def entryTieFirst : RssEntry :=
  { id := "T", feedId := "f1", feedTitle := "Feed One", rawXml := "",
    link := "https://example.com/tie", title := "tie copy one",
    publishedDate := .valid 30, description := "body", og := none,
    ogLoading := false, lastCommentTime := .empty }

/-- Second member of the tie pair. -/
def entryTieSecond : RssEntry :=
  { id := "T", feedId := "f1", feedTitle := "Feed One", rawXml := "",
    link := "https://example.com/tie", title := "tie copy two",
    publishedDate := .valid 30, description := "body", og := none,
    ogLoading := false, lastCommentTime := .empty }

/-- Duplicate with an unparsable date (`new Date(...)` gives `NaN`). -/
def entryUnparsable : RssEntry :=
  { id := "N", feedId := "f1", feedTitle := "Feed One", rawXml := "",
    link := "https://example.com/nan", title := "unparsable date",
    publishedDate := .invalid "not a date", description := "body", og := none,
    ogLoading := false, lastCommentTime := .empty }

/-- Duplicate of the unparsable-date record with a parsable date. -/
def entryParsable : RssEntry :=
  { id := "N", feedId := "f1", feedTitle := "Feed One", rawXml := "",
    link := "https://example.com/nan", title := "parsable date",
    publishedDate := .valid 40, description := "body", og := none,
    ogLoading := false, lastCommentTime := .empty }

/-- C3 counterexample: permuting duplicate records changes the
Deduplicator's result.  Three concrete failures: (1) the enrichment of the
older copy is carried over only when the newer copy arrives second;
(2) on a timestamp tie, whichever copy arrives first survives, core
fields included; (3) a record with an unparsable date survives against a
parsable one iff it arrives first (`NaN` comparisons are always false). -/
theorem dedup_not_commutative_cex :
    deduplicateEntries [entryOlderEnriched, entryNewerPlain] ≠
        deduplicateEntries [entryNewerPlain, entryOlderEnriched] ∧
      (deduplicateEntries [entryTieFirst, entryTieSecond]).map coreOf ≠
        (deduplicateEntries [entryTieSecond, entryTieFirst]).map coreOf ∧
      deduplicateEntries [entryUnparsable, entryParsable] ≠
        deduplicateEntries [entryParsable, entryUnparsable] := by
  refine ⟨?_, ?_, ?_⟩ <;> decide

/-- C3 (amended): permuting the input cannot change, for a URL whose
duplicate records all carry parsable timestamps that are pairwise
distinct, the surviving record's core fields (identity, link, title,
description, timestamp, feed fields); only the enrichment carry-over
(`og` / `ogLoading`) may depend on the duplicate order. -/
theorem dedup_merge_perm_core (l₁ l₂ : List RssEntry) (url : String)
    (hperm : l₁.Perm l₂) (hurl : url ≠ "")
    (hpar : ∀ e ∈ l₁, e.link = url → (dedupDate e.publishedDate).isSome = true)
    (hnd : ((l₁.filter (fun e => decide (e.link = url))).map
        (fun e => dedupDate e.publishedDate)).Nodup) :
    (dedupLookup l₁ url).map coreOf = (dedupLookup l₂ url).map coreOf := by
  unfold dedupLookup
  rw [dedup_lookup_localize l₁ [] url hurl, dedup_lookup_localize l₂ [] url hurl]
  have hlnil : lookupAssoc ([] : List (String × RssEntry)) url = none := rfl
  rw [hlnil]
  have hleft := foldl_pickMerge_core (l₁.filter (fun e => decide (e.link = url))) none none rfl
  have hright := foldl_pickMerge_core (l₂.filter (fun e => decide (e.link = url))) none none rfl
  rw [hleft, hright]
  have hpermf := hperm.filter (fun e => decide (e.link = url))
  have hpar' : ∀ e ∈ l₁.filter (fun e => decide (e.link = url)),
      (dedupDate e.publishedDate).isSome = true := by
    intro e he
    rw [List.mem_filter] at he
    exact hpar e he.1 (of_decide_eq_true he.2)
  rw [foldl_pickNewest_perm _ _ hpermf hpar' hnd]

/-- C3 witness: the amended commutativity statement applied to the
concrete scenario-D pair (distinct parsable timestamps 10 and 20). -/
theorem dedup_merge_perm_core_witness :
    (dedupLookup [entryOlderEnriched, entryNewerPlain] "https://example.com/article").map coreOf =
      (dedupLookup [entryNewerPlain, entryOlderEnriched] "https://example.com/article").map coreOf :=
  dedup_merge_perm_core [entryOlderEnriched, entryNewerPlain]
    [entryNewerPlain, entryOlderEnriched] "https://example.com/article"
    (by decide) (by decide) (by decide) (by decide)

/-! ## CrossPostDetector (`findCrossPostDescriptions`) -/

/-- Patterns in descriptions that indicate F5 Bot entries which are never
considered cross-posts. -/
def CROSS_POST_EXCEPTION_PATTERNS : List String :=
  ["keyword was found in",
   "keyword was found in submission title",
   "keyword was found in comment"]

/-- `isCrossPostException`: the lowercased description contains one of the
exception patterns. -/
def isCrossPostException (description : String) : Bool :=
  CROSS_POST_EXCEPTION_PATTERNS.any (fun pat => jsIncludes (jsToLower description) pat)

/-- One iteration of the map-building loop of `findCrossPostDescriptions`.
The JS body conditionally creates the key with an empty URL set and then
adds the entry's link when truthy; both steps are combined in one
`assocSet` (same key set and same bindings). -/
def crossPostStep (m : List (String × List String)) (entry : RssEntry) :
    List (String × List String) :=
  let description := getEntryDescription entry
  if description = "" then m
  else if isCrossPostException description then m
  else
    let urls := (lookupAssoc m description).getD []
    let urls' := if entry.link = "" then urls else addNew urls entry.link
    assocSet m description urls'

/-- `findCrossPostDescriptions`: the descriptions whose URL set has more
than one member, in map order. -/
def findCrossPostDescriptions (entries : List RssEntry) : List String :=
  (entries.foldl crossPostStep []).filterMap
    (fun p => if p.2.length > 1 then some p.1 else none)

/-- The non-empty links of the entries whose normalized description is
`d`, in input order (with repetitions). -/
def linksFor (entries : List RssEntry) (d : String) : List String :=
  entries.filterMap
    (fun e => if getEntryDescription e = d ∧ e.link ≠ "" then some e.link else none)

/-- The distinct non-empty links carried by entries whose normalized
description is `d`, in first-appearance order. -/
def distinctLinksFor (entries : List RssEntry) (d : String) : List String :=
  (linksFor entries d).foldl addNew []

theorem crossPost_fold_lookup (l : List RssEntry) (m : List (String × List String))
    (d : String) (hd : d ≠ "") (hexc : isCrossPostException d = false) :
    lookupAssoc (l.foldl crossPostStep m) d =
      match lookupAssoc m d with
      | some urls => some ((linksFor l d).foldl addNew urls)
      | none =>
          if l.any (fun e => decide (getEntryDescription e = d)) then
            some ((linksFor l d).foldl addNew [])
          else none := by
  induction l generalizing m with
  | nil =>
      cases ho : lookupAssoc m d <;> simp [linksFor, ho]
  | cons e es ih =>
      rw [List.foldl_cons]
      by_cases hde : getEntryDescription e = d
      · have hde' : getEntryDescription e ≠ "" := by rw [hde]; exact hd
        have hexc' : isCrossPostException (getEntryDescription e) = false := by
          rw [hde]; exact hexc
        have hstep : crossPostStep m e =
            assocSet m d (if e.link = "" then (lookupAssoc m d).getD []
              else addNew ((lookupAssoc m d).getD []) e.link) := by
          unfold crossPostStep
          rw [hde] at hde' hexc' ⊢
          simp [hde', hexc', hde]
        rw [hstep, ih]
        have hlook : lookupAssoc
            (assocSet m d (if e.link = "" then (lookupAssoc m d).getD []
              else addNew ((lookupAssoc m d).getD []) e.link)) d =
            some (if e.link = "" then (lookupAssoc m d).getD []
              else addNew ((lookupAssoc m d).getD []) e.link) := by
          rw [lookupAssoc_assocSet]
          simp
        rw [hlook]
        have hlinks : linksFor (e :: es) d =
            if e.link = "" then linksFor es d else e.link :: linksFor es d := by
          unfold linksFor
          rw [List.filterMap_cons]
          by_cases hl : e.link = "" <;> simp [hde, hl]
        rw [hlinks]
        cases ho : lookupAssoc m d with
        | some urls =>
            by_cases hl : e.link = "" <;>
              simp [hl, ho, List.foldl_cons, addNew]
        | none =>
            by_cases hl : e.link = "" <;>
              simp [hl, ho, List.foldl_cons, addNew, hde]
      · have hstep : lookupAssoc (crossPostStep m e) d = lookupAssoc m d := by
          unfold crossPostStep
          by_cases h0 : getEntryDescription e = ""
          · simp [h0]
          · by_cases h1 : isCrossPostException (getEntryDescription e)
            · simp [h0, h1]
            · simp only [h0, if_false, h1, Bool.false_eq_true, if_false]
              rw [lookupAssoc_assocSet]
              simp [hde]
        have hany : ((e :: es).any (fun e => decide (getEntryDescription e = d))) =
            (es.any (fun e => decide (getEntryDescription e = d))) := by
          simp [hde]
        have hlinks : linksFor (e :: es) d = linksFor es d := by
          unfold linksFor
          rw [List.filterMap_cons]
          simp [hde]
        rw [ih, hstep, hany, hlinks]

theorem lookup_eq_some_of_mem_nodup {β : Type} {m : List (String × β)}
    (hnd : (m.map Prod.fst).Nodup) {p : String × β} (hp : p ∈ m) :
    lookupAssoc m p.1 = some p.2 := by
  induction m with
  | nil => cases hp
  | cons q qs ih =>
      rw [List.map_cons, List.nodup_cons] at hnd
      cases hp with
      | head => simp [lookupAssoc]
      | tail _ hmem =>
          have hne : q.1 ≠ p.1 := by
            intro hcontra
            exact hnd.1 (hcontra ▸ (List.mem_map.mpr ⟨p, hmem, rfl⟩))
          simp [lookupAssoc, hne, ih hnd.2 hmem]

theorem crossPostStep_nodup_keys {m : List (String × List String)} (entry : RssEntry)
    (h : (m.map Prod.fst).Nodup) : ((crossPostStep m entry).map Prod.fst).Nodup := by
  unfold crossPostStep
  by_cases h0 : getEntryDescription entry = ""
  · simpa [h0] using h
  · by_cases h1 : isCrossPostException (getEntryDescription entry)
    · simpa [h0, h1] using h
    · simp only [h0, if_false, h1, Bool.false_eq_true, if_false]
      exact assocSet_nodup_keys _ _ _ h

theorem crossPost_fold_nodup_keys (l : List RssEntry) {m : List (String × List String)}
    (h : (m.map Prod.fst).Nodup) :
    ((l.foldl crossPostStep m).map Prod.fst).Nodup := by
  induction l generalizing m with
  | nil => exact h
  | cons e es ih => exact ih (crossPostStep_nodup_keys e h)

/-- C5: a non-empty, non-exception normalized description is in the
CrossPostDetector's result set iff at least two distinct (non-empty) links
carry it; in particular a description carried by a single link is never
tagged, and when two entries with distinct links share the description
both are tagged (their common normalized description is in the set). -/
theorem crossPost_iff (entries : List RssEntry) (d : String)
    (hd : d ≠ "") (hexc : isCrossPostException d = false) :
    d ∈ findCrossPostDescriptions entries ↔
      2 ≤ (distinctLinksFor entries d).length := by
  unfold findCrossPostDescriptions
  have hnd : (((entries.foldl crossPostStep []).map Prod.fst)).Nodup :=
    crossPost_fold_nodup_keys entries (by simp)
  have hlook := crossPost_fold_lookup entries [] d hd hexc
  rw [show lookupAssoc ([] : List (String × List String)) d = none from rfl] at hlook
  rw [List.mem_filterMap]
  constructor
  · rintro ⟨p, hp, hif⟩
    by_cases hlen : p.2.length > 1
    · simp only [hlen, if_true, Option.some.injEq] at hif
      subst hif
      have hlp := lookup_eq_some_of_mem_nodup hnd hp
      rw [hlp] at hlook
      by_cases hany : entries.any (fun e => decide (getEntryDescription e = p.1)) = true
      · rw [if_pos hany] at hlook
        have hrw : p.2 = (linksFor entries p.1).foldl addNew [] := by
          injection hlook.symm with h2
          exact h2.symm
        rw [hrw] at hlen
        unfold distinctLinksFor
        omega
      · simp only [Bool.not_eq_true] at hany
        rw [hany] at hlook
        simp at hlook
    · simp [hlen] at hif
  · intro hlen
    by_cases hany : entries.any (fun e => decide (getEntryDescription e = d)) = true
    · rw [if_pos hany] at hlook
      refine ⟨(d, (linksFor entries d).foldl addNew []), lookupAssoc_mem hlook, ?_⟩
      unfold distinctLinksFor at hlen
      have : ((linksFor entries d).foldl addNew []).length > 1 := by omega
      simp [this]
    · simp only [Bool.not_eq_true] at hany
      exfalso
      unfold distinctLinksFor at hlen
      have hempty : linksFor entries d = [] := by
        unfold linksFor
        rw [List.filterMap_eq_nil_iff]
        intro e he
        by_cases hcond : getEntryDescription e = d ∧ e.link ≠ ""
        · exfalso
          rw [List.any_eq_false] at hany
          have := hany e he
          simp [hcond.1] at this
        · simp [hcond]
      rw [hempty] at hlen
      simp at hlen

/-- Entries used for the C5 witness: the same description carried by two
distinct links. -/
def cpEntryOne : RssEntry :=
  { id := "cp1", feedId := "f1", feedTitle := "Feed One", rawXml := "",
    link := "https://example.com/post-1", title := "first post",
    publishedDate := .valid 100, description := "Company X raises funding",
    og := none, ogLoading := false, lastCommentTime := .empty }

/-- Second carrier of the shared description. -/
def cpEntryTwo : RssEntry :=
  { id := "cp2", feedId := "f2", feedTitle := "Feed Two", rawXml := "",
    link := "https://example.com/post-2", title := "second post",
    publishedDate := .valid 200, description := "Company X raises funding",
    og := none, ogLoading := false, lastCommentTime := .empty }

/-- C5 witness: the characterization applied to the concrete scenario-A
pair (same description, two distinct links). -/
theorem crossPost_iff_witness :
    "company x raises funding" ∈ findCrossPostDescriptions [cpEntryOne, cpEntryTwo] ↔
      2 ≤ (distinctLinksFor [cpEntryOne, cpEntryTwo] "company x raises funding").length :=
  crossPost_iff [cpEntryOne, cpEntryTwo] "company x raises funding" (by decide) (by decide)

/-! ## Reddit URL helpers (feed-entries component) -/

/-- `isRedditComment`: the URL contains both `reddit.com` and `/c/`. -/
def isRedditComment (url : String) : Bool :=
  if url = "" then false
  else jsIncludes url "reddit.com" && jsIncludes url "/c/"

/-- One character of the regex class `[a-zA-Z0-9]`. -/
def isAsciiAlnum (c : Char) : Bool :=
  ('a' ≤ c && c ≤ 'z') || ('A' ≤ c && c ≤ 'Z') || ('0' ≤ c && c ≤ '9')

/-- The literal part `/comments/` of the Reddit article-id regexes. -/
def commentsPat : List Char := "/comments/".data

/-- Length of the maximal alphanumeric run at the head of the list
(the greedy `[a-zA-Z0-9]+`). -/
def alnumRunLen : List Char → Nat
  | [] => 0
  | c :: cs => if isAsciiAlnum c then alnumRunLen cs + 1 else 0

/-- First match of `\/comments\/([a-zA-Z0-9]+)` scanning left to right,
returning the capture group. -/
def findCommentsCapture : List Char → Option (List Char)
  | [] => none
  | c :: cs =>
      if commentsPat.isPrefixOf (c :: cs) then
        let rest := (c :: cs).drop commentsPat.length
        let n := alnumRunLen rest
        if n = 0 then findCommentsCapture cs else some (rest.take n)
      else findCommentsCapture cs

/-- `getRedditArticleId`:
`url.match(/\/comments\/([a-zA-Z0-9]+)/)`, `null` for a falsy URL or no
match. -/
def getRedditArticleId (url : String) : Option String :=
  if url = "" then none
  else (findCommentsCapture url.data).map (fun l => ⟨l⟩)

/-- Length matched by `\/comments\/[a-zA-Z0-9]+\/` at the head of the
list, if it matches there. -/
def commentsUrlMatchLen (l : List Char) : Option Nat :=
  if commentsPat.isPrefixOf l then
    let rest := l.drop commentsPat.length
    let n := alnumRunLen rest
    if n = 0 then none
    else
      match rest.drop n with
      | '/' :: _ => some (commentsPat.length + n + 1)
      | _ => none
  else none

/-- End position (exclusive) of the last occurrence of
`\/comments\/[a-zA-Z0-9]+\/`, scanning the list with `i` as the index of
its head. -/
def lastCommentsUrlEnd : List Char → Nat → Option Nat
  | [], _ => none
  | c :: cs, i =>
      match lastCommentsUrlEnd cs (i + 1) with
      | some e => some e
      | none => (commentsUrlMatchLen (c :: cs)).map (fun n => i + n)

/-- `getRedditArticleUrl`:
`url.match(/(.*\/comments\/[a-zA-Z0-9]+\/)/)`; the greedy `.*` selects the
last occurrence and the capture is the URL prefix through it.  (The regex
dot does not cross line breaks; URLs are single-line, and no theorem
depends on this value, so line boundaries are not modelled.) -/
def getRedditArticleUrl (url : String) : Option String :=
  if url = "" then none
  else (lastCommentsUrlEnd url.data 0).map (fun n => ⟨url.data.take n⟩)

/-- Index of the first position where the segment occurs. -/
def firstSegIdx {α : Type} [DecidableEq α] (needle : List α) : List α → Option Nat
  | [] => if startsWithSeg needle ([] : List α) then some 0 else none
  | a :: tl =>
      if startsWithSeg needle (a :: tl) then some 0
      else (firstSegIdx needle tl).map (· + 1)

/-- `link.replace(/\/c\/.*$/, '/')`: cut the URL at the first `/c/` and
close it with `/` (identity when `/c/` does not occur). -/
def replaceCommentSuffix (url : String) : String :=
  match firstSegIdx "/c/".data url.data with
  | none => url
  | some i => ⟨url.data.take i ++ ['/']⟩

/-! ## Status map (`src/utils/entryState.ts`) -/

/-- The three entry dispositions. -/
inductive EntryStatus : Type where
  | to_process : EntryStatus
  | processed : EntryStatus
  | ignored : EntryStatus
deriving DecidableEq, Repr

/-- `getEntryStatus`: the stored status, defaulting to `to_process`.  The
persisted localStorage object is passed explicitly as `states`. -/
def getEntryStatus (states : List (String × EntryStatus)) (entryId : String) : EntryStatus :=
  (lookupAssoc states entryId).getD .to_process

/-- `setEntryStatus`: setting `to_process` deletes the binding (the
default is implicit); any other status overwrites or adds it. -/
def setEntryStatus (states : List (String × EntryStatus)) (entryId : String)
    (status : EntryStatus) : List (String × EntryStatus) :=
  match status with
  | .to_process => states.filter (fun p => decide (p.1 ≠ entryId))
  | _ => assocSet states entryId status

/-- Apply a sequence of `setEntryStatus` operations starting from the
empty map. -/
def applyStatusOps (ops : List (String × EntryStatus)) : List (String × EntryStatus) :=
  ops.foldl (fun st op => setEntryStatus st op.1 op.2) []

/-- The last status set for an id by a sequence of operations,
`to_process` when the id was never set. -/
def lastStatusSet (ops : List (String × EntryStatus)) (entryId : String) : EntryStatus :=
  ((ops.reverse.find? (fun op => decide (op.1 = entryId))).map Prod.snd).getD .to_process

theorem lookupAssoc_filter_ne {β : Type} (m : List (String × β)) (k k' : String) :
    lookupAssoc (m.filter (fun p => decide (p.1 ≠ k))) k' =
      if k = k' then none else lookupAssoc m k' := by
  induction m with
  | nil => by_cases h : k = k' <;> simp [lookupAssoc, h]
  | cons p ps ih =>
      rw [List.filter_cons]
      by_cases hp : p.1 = k
      · have hc : decide (p.1 ≠ k) = false := by simp [hp]
        rw [hc]
        simp only [Bool.false_eq_true, if_false]
        rw [ih]
        by_cases h : k = k'
        · simp [h]
        · simp [h, lookupAssoc, show ¬ (p.1 = k') from fun hc2 => h (hp.symm.trans hc2)]
      · have hc : decide (p.1 ≠ k) = true := by simp [hp]
        rw [hc]
        simp only [if_true]
        by_cases h2 : p.1 = k'
        · have h : ¬ (k = k') := fun hcc => hp (h2.trans hcc.symm)
          simp [lookupAssoc, h2, h]
        · have hstep : lookupAssoc (p :: List.filter (fun p => decide (p.1 ≠ k)) ps) k' =
              lookupAssoc (List.filter (fun p => decide (p.1 ≠ k)) ps) k' := by
            simp [lookupAssoc, h2]
          rw [hstep, ih]
          by_cases h : k = k' <;> simp [h, lookupAssoc, h2]

theorem getEntryStatus_setEntryStatus (states : List (String × EntryStatus))
    (entryId id : String) (status : EntryStatus) :
    getEntryStatus (setEntryStatus states entryId status) id =
      if entryId = id then status else getEntryStatus states id := by
  cases status with
  | to_process =>
      unfold setEntryStatus getEntryStatus
      rw [lookupAssoc_filter_ne]
      by_cases h : entryId = id <;> simp [h]
  | processed =>
      unfold setEntryStatus getEntryStatus
      rw [lookupAssoc_assocSet]
      by_cases h : entryId = id <;> simp [h]
  | ignored =>
      unfold setEntryStatus getEntryStatus
      rw [lookupAssoc_assocSet]
      by_cases h : entryId = id <;> simp [h]

theorem getEntryStatus_foldl (ops : List (String × EntryStatus))
    (st : List (String × EntryStatus)) (id : String) :
    getEntryStatus (ops.foldl (fun st op => setEntryStatus st op.1 op.2) st) id =
      ((ops.reverse.find? (fun op => decide (op.1 = id))).map Prod.snd).getD
        (getEntryStatus st id) := by
  induction ops generalizing st with
  | nil => simp
  | cons op ops ih =>
      rw [List.foldl_cons, ih, List.reverse_cons, List.find?_append]
      cases hf : ops.reverse.find? (fun op => decide (op.1 = id)) with
      | some v => simp [Option.or]
      | none =>
          simp only [Option.or]
          by_cases hop : op.1 = id
          · have hfind : List.find? (fun op => decide (op.1 = id)) [op] = some op := by
              simp [List.find?, hop]
            rw [hfind]
            simp [getEntryStatus_setEntryStatus, hop]
          · have hfind : List.find? (fun op => decide (op.1 = id)) [op] = none := by
              simp [List.find?, hop]
            rw [hfind]
            simp [getEntryStatus_setEntryStatus, hop]

theorem setEntryStatus_no_to_process {states : List (String × EntryStatus)}
    (entryId : String) (status : EntryStatus)
    (h : states.all (fun p => decide (p.2 ≠ EntryStatus.to_process)) = true) :
    (setEntryStatus states entryId status).all
      (fun p => decide (p.2 ≠ EntryStatus.to_process)) = true := by
  rw [List.all_eq_true] at h ⊢
  intro p hp
  cases status with
  | to_process =>
      unfold setEntryStatus at hp
      exact h p (List.mem_of_mem_filter hp)
  | processed =>
      unfold setEntryStatus at hp
      rcases mem_assocSet hp with h1 | h1
      · subst h1; simp
      · exact h p h1.1
  | ignored =>
      unfold setEntryStatus at hp
      rcases mem_assocSet hp with h1 | h1
      · subst h1; simp
      · exact h p h1.1

/-- C10: after any sequence of `setEntryStatus` operations (from the empty
map), the persisted map never stores a `to_process` value, and
`getEntryStatus` returns the last status set for the id (`to_process`
when the id is absent). -/
theorem entryState_invariant (ops : List (String × EntryStatus)) (id : String) :
    (applyStatusOps ops).all (fun p => decide (p.2 ≠ EntryStatus.to_process)) = true ∧
      getEntryStatus (applyStatusOps ops) id = lastStatusSet ops id := by
  constructor
  · unfold applyStatusOps
    have hgen : ∀ st, st.all (fun p => decide (p.2 ≠ EntryStatus.to_process)) = true →
        (ops.foldl (fun st op => setEntryStatus st op.1 op.2) st).all
          (fun p => decide (p.2 ≠ EntryStatus.to_process)) = true := by
      induction ops with
      | nil => intro st h; exact h
      | cons op ops ih =>
          intro st h
          rw [List.foldl_cons]
          exact ih _ (setEntryStatus_no_to_process op.1 op.2 h)
    exact hgen [] (by simp)
  · unfold applyStatusOps lastStatusSet
    rw [getEntryStatus_foldl]
    rfl

/-! ## TagFilterEngine (`src/utils/tagFilter.ts` and `filteredEntries`) -/

/-- A visibility toggle. -/
inductive TagFilterState : Type where
  | shown : TagFilterState
  | hidden : TagFilterState
deriving DecidableEq, Repr

/-- The tag-filter configuration: content tags, status tags, and the
dynamic per-feed map keyed by feed title. -/
structure TagFilters : Type where
  comment : TagFilterState
  crossPost : TagFilterState
  deleted : TagFilterState
  mentionsInterest : TagFilterState
  github : TagFilterState
  statusToProcess : TagFilterState
  statusDone : TagFilterState
  statusIgnored : TagFilterState
  feeds : List (String × TagFilterState)
deriving DecidableEq, Repr

/-- `DEFAULT_TAG_FILTERS`: every toggle shown, no feed overrides. -/
def DEFAULT_TAG_FILTERS : TagFilters :=
  { comment := .shown, crossPost := .shown, deleted := .shown,
    mentionsInterest := .shown, github := .shown, statusToProcess := .shown,
    statusDone := .shown, statusIgnored := .shown, feeds := [] }

/-- `getFeedFilterState`: per-feed toggle with default `shown`. -/
def getFeedFilterState (filters : TagFilters) (feedTitle : String) : TagFilterState :=
  (lookupAssoc filters.feeds feedTitle).getD .shown

/-- `Object.entries(tagFilters).filter(([key]) => key !== 'feeds')
  .some(([, value]) => value === 'hidden')`. -/
def hasStaticFilter (tagFilters : TagFilters) : Bool :=
  decide (tagFilters.comment = .hidden) ||
  decide (tagFilters.crossPost = .hidden) ||
  decide (tagFilters.deleted = .hidden) ||
  decide (tagFilters.mentionsInterest = .hidden) ||
  decide (tagFilters.github = .hidden) ||
  decide (tagFilters.statusToProcess = .hidden) ||
  decide (tagFilters.statusDone = .hidden) ||
  decide (tagFilters.statusIgnored = .hidden)

/-- `Object.values(tagFilters.feeds).some(v => v === 'hidden')`. -/
def hasFeedFilter (tagFilters : TagFilters) : Bool :=
  tagFilters.feeds.any (fun p => decide (p.2 = .hidden))

/-- `filteredEntries` from the feed-entries component.  The component
state that the memo reads is passed explicitly: the interest keyword, the
cross-post description set, and the persisted status map. -/
def filteredEntries (entries : List RssEntry) (tagFilters : TagFilters)
    (interest : String) (crossPostDescriptions : List String)
    (states : List (String × EntryStatus)) : List RssEntry :=
  if !hasStaticFilter tagFilters && !hasFeedFilter tagFilters then entries
  else
    let interestLower := jsToLower interest
    entries.filter (fun entry =>
      let displayTitle := jsOrStr (ogField entry (·.ogTitle)) entry.title
      let displayDescription := jsOrStr (ogField entry (·.ogDescription)) entry.description
      let isComment := isRedditComment entry.link
      let isCrossPost := decide (jsToLower (jsTrim displayDescription) ∈ crossPostDescriptions)
      let isDeleted := jsIncludes (jsToLower displayDescription) "[removed]"
      let mentions := jsIncludes (jsToLower displayTitle) interestLower ||
        jsIncludes (jsToLower displayDescription) interestLower
      let isGitHub := jsIncludes entry.link "github.com/livekit"
      let status := getEntryStatus states entry.id
      !(decide (tagFilters.comment = .hidden) && isComment) &&
      !(decide (tagFilters.crossPost = .hidden) && isCrossPost) &&
      !(decide (tagFilters.deleted = .hidden) && isDeleted) &&
      !(decide (tagFilters.mentionsInterest = .hidden) && mentions) &&
      !(decide (tagFilters.github = .hidden) && isGitHub) &&
      !(decide (tagFilters.statusToProcess = .hidden) && decide (status = .to_process)) &&
      !(decide (tagFilters.statusDone = .hidden) && decide (status = .processed)) &&
      !(decide (tagFilters.statusIgnored = .hidden) && decide (status = .ignored)) &&
      !(decide (entry.feedTitle ≠ "") &&
        decide (getFeedFilterState tagFilters entry.feedTitle = .hidden)))

/-- No toggle of the configuration (static, status, or per-feed) is set to
hidden. -/
def noHiddenToggle (tagFilters : TagFilters) : Bool :=
  !hasStaticFilter tagFilters && !hasFeedFilter tagFilters

/-- C7: when no toggle is hidden, the TagFilterEngine returns its input
list unchanged (the JS code returns the very same array reference; in the
embedding this is equality with the input). -/
theorem filteredEntries_identity (entries : List RssEntry) (tagFilters : TagFilters)
    (interest : String) (crossPostDescriptions : List String)
    (states : List (String × EntryStatus))
    (h : noHiddenToggle tagFilters = true) :
    filteredEntries entries tagFilters interest crossPostDescriptions states = entries := by
  unfold noHiddenToggle at h
  unfold filteredEntries
  rw [h]
  simp

/-- C7 witness: the identity at a concrete entry list and the default
filter configuration. -/
theorem filteredEntries_identity_witness :
    filteredEntries [cpEntryOne, cpEntryTwo] DEFAULT_TAG_FILTERS "Darryn Campbell" [] [] =
      [cpEntryOne, cpEntryTwo] :=
  filteredEntries_identity [cpEntryOne, cpEntryTwo] DEFAULT_TAG_FILTERS "Darryn Campbell" [] []
    (by decide)

/-! ## CommentThreader (`groupCommentsUnderArticles`) -/

/-- An entry annotated for threaded display (`EntryWithThread`): the
optional JS flags are booleans defaulting to false. -/
structure EntryWithThread : Type where
  toRssEntry : RssEntry
  isCommentThread : Bool
  isDummyParent : Bool
deriving DecidableEq, Repr

/-- An entry pushed to the output unchanged (both flags absent). -/
def plainEntry (e : RssEntry) : EntryWithThread :=
  { toRssEntry := e, isCommentThread := false, isDummyParent := false }

/-- A reply pushed to the output (`{...comment, isCommentThread: true}`). -/
def threadEntry (e : RssEntry) : EntryWithThread :=
  { toRssEntry := e, isCommentThread := true, isDummyParent := false }

/-- Descending-date order on entries, the order produced by the JS stable
sort with comparator `(a, b) => getEntryDate(b) - getEntryDate(a)`. -/
def dateGE (a b : RssEntry) : Prop := getEntryDate b ≤ getEntryDate a

instance : DecidableRel dateGE := fun a b =>
  inferInstanceAs (Decidable (getEntryDate b ≤ getEntryDate a))

instance : IsTotal RssEntry dateGE :=
  ⟨fun a b => le_total (getEntryDate b) (getEntryDate a)⟩

instance : IsTrans RssEntry dateGE :=
  ⟨fun _ _ _ h1 h2 => le_trans h2 h1⟩

/-- `sortByDate`: stable descending-date sort (insertion sort is stable
for this total transitive relation, like the JS built-in sort). -/
def sortByDate (entries : List RssEntry) : List RssEntry :=
  List.insertionSort dateGE entries

/-- Does the first pass route the entry to the main (non-comment) list? -/
def isMainEntry (e : RssEntry) : Bool :=
  match getRedditArticleId e.link with
  | none => true
  | some _ => !isRedditComment e.link

/-- Does the first pass route the entry into the comment group `aid`? -/
def inGroup (aid : String) (e : RssEntry) : Bool :=
  decide (getRedditArticleId e.link = some aid) && isRedditComment e.link

/-- One step of the first pass of `groupCommentsUnderArticles`: Reddit
comments are collected into per-article groups, everything else goes to
the main list.  (The source also fills an `articleIdToEntry` map that is
never read afterwards; it is omitted.) -/
def firstPassStep (acc : List (String × List RssEntry) × List RssEntry)
    (entry : RssEntry) : List (String × List RssEntry) × List RssEntry :=
  match getRedditArticleId entry.link with
  | none => (acc.1, acc.2 ++ [entry])
  | some articleId =>
      if isRedditComment entry.link then
        (assocSet acc.1 articleId ((lookupAssoc acc.1 articleId).getD [] ++ [entry]), acc.2)
      else (acc.1, acc.2 ++ [entry])

/-- The comment map and main entry list built by the first pass. -/
def firstPass (entries : List RssEntry) :
    List (String × List RssEntry) × List RssEntry :=
  entries.foldl firstPassStep ([], [])

/-- The comment map with each group sorted by descending date
(`comments.sort((a, b) => getEntryDate(b) - getEntryDate(a))`). -/
def sortedCommentMap (entries : List RssEntry) : List (String × List RssEntry) :=
  (firstPass entries).1.map (fun p => (p.1, sortByDate p.2))

/-- The main entries sorted by descending date. -/
def sortedNonComments (entries : List RssEntry) : List RssEntry :=
  sortByDate (firstPass entries).2

/-- The block emitted for one main entry: the entry followed by its
(sorted) comment group when it is a Reddit article that has one. -/
def primaryBlock (cm : List (String × List RssEntry)) (e : RssEntry) :
    List EntryWithThread :=
  match getRedditArticleId e.link with
  | none => [plainEntry e]
  | some articleId =>
      plainEntry e :: ((lookupAssoc cm articleId).getD []).map threadEntry

/-- The primary emission: main entries in sorted order, each followed by
its comment group. -/
def primaryResult (cm : List (String × List RssEntry)) (non : List RssEntry) :
    List EntryWithThread :=
  (non.map (primaryBlock cm)).flatten

/-- `processedArticleIds`: the article ids of the emitted main entries. -/
def processedArticleIds (non : List RssEntry) : List String :=
  non.filterMap (fun e => getRedditArticleId e.link)

/-- An orphan group: its article id, its sorted comments, and the date of
the newest comment. -/
structure OrphanGroup : Type where
  articleId : String
  comments : List RssEntry
  newestDate : Int
deriving DecidableEq, Repr

/-- `getEntryDate(comments[0])` of a sorted group (groups are never
empty). -/
def newestOf (comments : List RssEntry) : Int :=
  match comments with
  | [] => 0
  | c :: _ => getEntryDate c

/-- Descending order on orphan groups by newest-comment date. -/
def orphanGE (a b : OrphanGroup) : Prop := b.newestDate ≤ a.newestDate

instance : DecidableRel orphanGE := fun a b =>
  inferInstanceAs (Decidable (b.newestDate ≤ a.newestDate))

instance : IsTotal OrphanGroup orphanGE :=
  ⟨fun a b => le_total b.newestDate a.newestDate⟩

instance : IsTrans OrphanGroup orphanGE :=
  ⟨fun _ _ _ h1 h2 => le_trans h2 h1⟩

/-- The orphan groups (comment groups whose article id was never emitted
as a main entry), sorted by descending newest-comment date (stable). -/
def orphanGroups (cm : List (String × List RssEntry)) (pids : List String) :
    List OrphanGroup :=
  List.insertionSort orphanGE
    (((cm.map Prod.fst).filter (fun aid => decide (aid ∉ pids))).map
      (fun aid =>
        { articleId := aid, comments := (lookupAssoc cm aid).getD [],
          newestDate := newestOf ((lookupAssoc cm aid).getD []) }))

/-- The fallback entry for `headD` (groups are provably non-empty, so it
is never used). -/
def emptyRssEntry : RssEntry :=
  { id := "", feedId := "", feedTitle := "", rawXml := "", link := "",
    title := "", publishedDate := .empty, description := "", og := none,
    ogLoading := false, lastCommentTime := .empty }

/-- The synthesized placeholder root for an orphan comment group. -/
def mkDummyParent (listName articleId : String) (comments : List RssEntry) :
    EntryWithThread :=
  let firstComment := comments.headD emptyRssEntry
  { toRssEntry :=
      { id := "dummy-article-" ++ articleId,
        feedId := firstComment.feedId,
        feedTitle := firstComment.feedTitle,
        rawXml := "",
        link := (getRedditArticleUrl firstComment.link).getD
          (replaceCommentSuffix firstComment.link),
        title := "Reddit Thread (" ++ toString comments.length ++ " comment" ++
          (if comments.length > 1 then "s" else "") ++ ")",
        publishedDate := firstComment.publishedDate,
        description := "Parent article not in '" ++ listName ++
          "' list - click to view the original thread",
        og := none, ogLoading := false, lastCommentTime := .empty },
    isCommentThread := false,
    isDummyParent := true }

/-- The emitted block for an orphan group: placeholder followed by its
sorted replies. -/
def orphanBlock (listName : String) (og : OrphanGroup) : List EntryWithThread :=
  mkDummyParent listName og.articleId og.comments :: og.comments.map threadEntry

/-- Split the primary sequence at the first entry strictly older than the
given date (the merge's while loop emits primary entries while
`!(nextOrphanDate > nextResultDate)`). -/
def emitUntil (newest : Int) :
    List EntryWithThread → List EntryWithThread × List EntryWithThread
  | [] => ([], [])
  | r :: rs =>
      if newest > getEntryDate r.toRssEntry then ([], r :: rs)
      else
        let s := emitUntil newest rs
        (r :: s.1, s.2)

/-- The orphan-merge loop of `groupCommentsUnderArticles` in explicit
recursion form: each orphan block is spliced in before the first remaining
primary entry strictly older than the block's newest-comment date. -/
def mergeLoop (listName : String) :
    List EntryWithThread → List OrphanGroup → List EntryWithThread
  | res, [] => res
  | res, og :: ogs =>
      (emitUntil og.newestDate res).1 ++ orphanBlock listName og ++
        mergeLoop listName (emitUntil og.newestDate res).2 ogs

/-- `groupCommentsUnderArticles`.  (The source guards the merge behind
`if (orphanGroups.length > 0)`; `mergeLoop` with an empty orphan list
returns the primary sequence unchanged, so the guard is dropped.) -/
def groupCommentsUnderArticles (entries : List RssEntry) (listName : String) :
    List EntryWithThread :=
  let cm := sortedCommentMap entries
  let non := sortedNonComments entries
  mergeLoop listName (primaryResult cm non) (orphanGroups cm (processedArticleIds non))

/-- `sortWithGrouping`: date sort then comment threading (the cross-post
set parameter is accepted but unused, as in the source, where cross-post
grouping was removed). -/
def sortWithGrouping (entries : List RssEntry) (crossPostDescriptions : List String)
    (listName : String) : List EntryWithThread :=
  groupCommentsUnderArticles (sortByDate entries) listName

/-! ## Output checkers for the threading claims -/

/-- The structural parent key of an output entry. -/
def parentKeyOf (x : EntryWithThread) : Option String :=
  getRedditArticleId x.toRssEntry.link

/-- Does `r` serve as root for replies with parent key `aid`: a non-reply
entry whose own article id is `aid`, or the synthesized placeholder for
`aid`. -/
def isRootFor (r : EntryWithThread) (aid : String) : Bool :=
  !r.isCommentThread &&
    (if r.isDummyParent then decide (r.toRssEntry.id = "dummy-article-" ++ aid)
     else decide (parentKeyOf r = some aid))

/-- Scanning the output with the already-emitted prefix: every
reply-flagged entry has a root for its parent key strictly before it. -/
def repliesRooted (prior : List EntryWithThread) : List EntryWithThread → Bool
  | [] => true
  | x :: xs =>
      (if x.isCommentThread then
        match parentKeyOf x with
        | some aid => prior.any (fun r => isRootFor r aid)
        | none => false
       else true) &&
      repliesRooted (prior ++ [x]) xs

/-- Adjacent reply entries of one thread are weakly descending by date. -/
def pairOrdered (x y : EntryWithThread) : Bool :=
  if x.isCommentThread && y.isCommentThread && decide (parentKeyOf x = parentKeyOf y) then
    decide (getEntryDate y.toRssEntry ≤ getEntryDate x.toRssEntry)
  else true

/-- All adjacent same-thread reply pairs are weakly descending. -/
def adjacentRepliesOrdered : List EntryWithThread → Bool
  | [] => true
  | [_] => true
  | x :: y :: rest => pairOrdered x y && adjacentRepliesOrdered (y :: rest)

/-- Adjacent reply entries of one thread are strictly descending by date
(the original claim's ordering). -/
def pairStrict (x y : EntryWithThread) : Bool :=
  if x.isCommentThread && y.isCommentThread && decide (parentKeyOf x = parentKeyOf y) then
    decide (getEntryDate y.toRssEntry < getEntryDate x.toRssEntry)
  else true

/-- All adjacent same-thread reply pairs are strictly descending. -/
def adjacentRepliesStrict : List EntryWithThread → Bool
  | [] => true
  | [_] => true
  | x :: y :: rest => pairStrict x y && adjacentRepliesStrict (y :: rest)

/-- Weakly descending chain of integers. -/
def chainDesc : List Int → Bool
  | [] => true
  | [_] => true
  | x :: y :: rest => decide (y ≤ x) && chainDesc (y :: rest)

/-- The root entries of the output (real roots and synthesized
placeholders) appear in weakly descending date order. -/
def rootsDescending (out : List EntryWithThread) : Bool :=
  chainDesc ((out.filter (fun x => !x.isCommentThread)).map
    (fun x => getEntryDate x.toRssEntry))

/-- The dates of the entries immediately following each placeholder: the
first reply of each orphan block, i.e. the block's synthetic timestamp. -/
def synthDates : List EntryWithThread → List Int
  | [] => []
  | [_] => []
  | x :: y :: rest =>
      (if x.isDummyParent then [getEntryDate y.toRssEntry] else []) ++
        synthDates (y :: rest)

/-! ## Concrete entries for the threading scenarios -/

/-- A minimal entry with the given link and timestamp. -/
def mkScenarioEntry (link : String) (t : Int) : RssEntry :=
  { id := link, feedId := "f", feedTitle := "Feed One", rawXml := "",
    link := link, title := "entry", publishedDate := .valid t,
    description := "body", og := none, ogLoading := false,
    lastCommentTime := .empty }

/-- Reddit article with id `abc`, t=50. -/
def rootAbc : RssEntry :=
  mkScenarioEntry "https://www.reddit.com/r/x/comments/abc/title" 50

/-- Reply to `abc`, t=50 (tied with the next reply). -/
def replyAbcOne : RssEntry :=
  mkScenarioEntry "https://www.reddit.com/r/x/comments/abc/c/r1" 50

/-- Second reply to `abc`, also t=50. -/
def replyAbcTwo : RssEntry :=
  mkScenarioEntry "https://www.reddit.com/r/x/comments/abc/c/r2" 50

/-- Orphan reply with parent `xyz`, t=90 (scenario C). -/
def orphanReply : RssEntry :=
  mkScenarioEntry "https://www.reddit.com/r/x/comments/xyz/c/abc" 90

/-- Plain non-Reddit entry D, t=70 (scenario C). -/
def plainD : RssEntry := mkScenarioEntry "https://example.com/d" 70

/-- Reddit article `aaa`, t=100. -/
def rootAaa : RssEntry :=
  mkScenarioEntry "https://www.reddit.com/r/x/comments/aaa/post" 100

/-- Old reply to `aaa`, t=10. -/
def replyAaaOld : RssEntry :=
  mkScenarioEntry "https://www.reddit.com/r/x/comments/aaa/c/r1" 10

/-- Reddit article `bbb`, t=90. -/
def rootBbb : RssEntry :=
  mkScenarioEntry "https://www.reddit.com/r/x/comments/bbb/post" 90

/-- Orphan reply with parent `ccc`, t=50. -/
def orphanCcc : RssEntry :=
  mkScenarioEntry "https://www.reddit.com/r/x/comments/ccc/c/r9" 50

/-- C1 counterexample: two replies of thread `abc` with equal timestamps
appear consecutively, so within-thread reply order is not STRICTLY
descending (it is weakly descending with stable tie order). -/
theorem thread_strict_order_cex :
    adjacentRepliesStrict
      (groupCommentsUnderArticles [rootAbc, replyAbcOne, replyAbcTwo] "To Process") = false := by
  decide

/-- C2 counterexample: with root `aaa` (t=100) followed by its old reply
(t=10), another root `bbb` (t=90), and an orphan reply (t=50), the merge
compares the orphan block against each entry's own date (including the
t=10 reply), so the placeholder (synthetic t=50) is spliced in before the
reply and the root order in the output is 100, 50, 90 — global
descending-timestamp order over root timestamps is NOT preserved. -/
theorem thread_root_order_cex :
    rootsDescending
      (groupCommentsUnderArticles [rootAaa, replyAaaOld, rootBbb, orphanCcc]
        "To Process") = false := by
  decide

/-! ### First-pass characterization -/

theorem firstPass_foldl_non (l : List RssEntry)
    (acc : List (String × List RssEntry) × List RssEntry) :
    (l.foldl firstPassStep acc).2 = acc.2 ++ l.filter isMainEntry := by
  induction l generalizing acc with
  | nil => simp
  | cons e es ih =>
      rw [List.foldl_cons, List.filter_cons]
      cases ha : getRedditArticleId e.link with
      | none =>
          have hm : isMainEntry e = true := by
            unfold isMainEntry
            rw [ha]
          have hstep : firstPassStep acc e = (acc.1, acc.2 ++ [e]) := by
            unfold firstPassStep
            rw [ha]
          rw [hstep, ih, hm]
          simp
      | some aid =>
          by_cases hc : isRedditComment e.link = true
          · have hm : isMainEntry e = false := by
              unfold isMainEntry
              rw [ha, hc]
              rfl
            have hstep : firstPassStep acc e =
                (assocSet acc.1 aid ((lookupAssoc acc.1 aid).getD [] ++ [e]), acc.2) := by
              unfold firstPassStep
              rw [ha]
              simp [hc]
            rw [hstep, ih, hm]
            simp
          · simp only [Bool.not_eq_true] at hc
            have hm : isMainEntry e = true := by
              unfold isMainEntry
              rw [ha, hc]
              rfl
            have hstep : firstPassStep acc e = (acc.1, acc.2 ++ [e]) := by
              unfold firstPassStep
              rw [ha]
              simp [hc]
            rw [hstep, ih, hm]
            simp

theorem firstPass_foldl_lookup (l : List RssEntry)
    (acc : List (String × List RssEntry) × List RssEntry) (aid : String) :
    lookupAssoc (l.foldl firstPassStep acc).1 aid =
      match lookupAssoc acc.1 aid with
      | some g => some (g ++ l.filter (inGroup aid))
      | none =>
          if l.any (inGroup aid) then some (l.filter (inGroup aid)) else none := by
  induction l generalizing acc with
  | nil =>
      cases ho : lookupAssoc acc.1 aid <;> simp [ho]
  | cons e es ih =>
      rw [List.foldl_cons, List.filter_cons]
      cases ha : getRedditArticleId e.link with
      | none =>
          have hg : inGroup aid e = false := by
            unfold inGroup
            rw [ha]
            simp
          have hstep : firstPassStep acc e = (acc.1, acc.2 ++ [e]) := by
            unfold firstPassStep
            rw [ha]
          rw [hstep, ih, hg]
          simp [hg]
      | some aid' =>
          by_cases hc : isRedditComment e.link = true
          · by_cases heq : aid' = aid
            · rw [heq] at ha
              have hg : inGroup aid e = true := by
                unfold inGroup
                rw [ha, hc]
                simp
              have hstep : firstPassStep acc e =
                  (assocSet acc.1 aid ((lookupAssoc acc.1 aid).getD [] ++ [e]), acc.2) := by
                unfold firstPassStep
                rw [ha]
                simp [hc]
              rw [hstep, ih, hg]
              have hl : lookupAssoc
                  (assocSet acc.1 aid ((lookupAssoc acc.1 aid).getD [] ++ [e])) aid =
                  some ((lookupAssoc acc.1 aid).getD [] ++ [e]) := by
                rw [lookupAssoc_assocSet]
                simp
              rw [hl]
              cases ho : lookupAssoc acc.1 aid with
              | some g => simp [ho]
              | none => simp [ho, hg]
            · have hg : inGroup aid e = false := by
                unfold inGroup
                rw [ha]
                simp [heq]
              have hstep : firstPassStep acc e =
                  (assocSet acc.1 aid' ((lookupAssoc acc.1 aid').getD [] ++ [e]), acc.2) := by
                unfold firstPassStep
                rw [ha]
                simp [hc]
              rw [hstep, ih, hg]
              have hl : lookupAssoc
                  (assocSet acc.1 aid' ((lookupAssoc acc.1 aid').getD [] ++ [e])) aid =
                  lookupAssoc acc.1 aid := by
                rw [lookupAssoc_assocSet]
                simp [heq]
              rw [hl]
              simp [hg]
          · simp only [Bool.not_eq_true] at hc
            have hg : inGroup aid e = false := by
              unfold inGroup
              rw [hc]
              simp
            have hstep : firstPassStep acc e = (acc.1, acc.2 ++ [e]) := by
              unfold firstPassStep
              rw [ha]
              simp [hc]
            rw [hstep, ih, hg]
            simp [hg]

theorem firstPass_keys_nodup (l : List RssEntry)
    (acc : List (String × List RssEntry) × List RssEntry)
    (h : (acc.1.map Prod.fst).Nodup) :
    (((l.foldl firstPassStep acc).1).map Prod.fst).Nodup := by
  induction l generalizing acc with
  | nil => exact h
  | cons e es ih =>
      rw [List.foldl_cons]
      apply ih
      unfold firstPassStep
      cases ha : getRedditArticleId e.link with
      | none => exact h
      | some aid =>
          by_cases hc : isRedditComment e.link = true
          · simp only [hc, if_true]
            exact assocSet_nodup_keys _ _ _ h
          · simp only [Bool.not_eq_true] at hc
            simp only [hc, Bool.false_eq_true, if_false]
            exact h

theorem lookupAssoc_map_value {β γ : Type} (m : List (String × β)) (f : β → γ) (k : String) :
    lookupAssoc (m.map (fun p => (p.1, f p.2))) k = (lookupAssoc m k).map f := by
  induction m with
  | nil => rfl
  | cons p ps ih => by_cases h : p.1 = k <;> simp [lookupAssoc, h, ih]

theorem sortedCommentMap_lookup (entries : List RssEntry) (aid : String) :
    lookupAssoc (sortedCommentMap entries) aid =
      (lookupAssoc (firstPass entries).1 aid).map sortByDate :=
  lookupAssoc_map_value (firstPass entries).1 sortByDate aid

theorem sortedCommentMap_keys (entries : List RssEntry) :
    (sortedCommentMap entries).map Prod.fst = (firstPass entries).1.map Prod.fst := by
  unfold sortedCommentMap
  rw [List.map_map]
  rfl

theorem firstPass_lookup_char (entries : List RssEntry) (aid : String) :
    lookupAssoc (firstPass entries).1 aid =
      if entries.any (inGroup aid) then some (entries.filter (inGroup aid)) else none := by
  unfold firstPass
  rw [firstPass_foldl_lookup]
  rfl

theorem firstPass_non_char (entries : List RssEntry) :
    (firstPass entries).2 = entries.filter isMainEntry := by
  unfold firstPass
  rw [firstPass_foldl_non]
  rfl

theorem sortByDate_perm (l : List RssEntry) : (sortByDate l).Perm l :=
  List.perm_insertionSort dateGE l

theorem sortByDate_sorted (l : List RssEntry) : List.Sorted dateGE (sortByDate l) :=
  List.sorted_insertionSort dateGE l

theorem mem_group_facts {entries : List RssEntry} {aid : String} {g : List RssEntry}
    (h : lookupAssoc (sortedCommentMap entries) aid = some g) :
    g ≠ [] ∧ List.Sorted dateGE g ∧
      ∀ c ∈ g, getRedditArticleId c.link = some aid ∧
        isRedditComment c.link = true ∧ c ∈ entries := by
  rw [sortedCommentMap_lookup, firstPass_lookup_char] at h
  by_cases hany : entries.any (inGroup aid) = true
  · rw [if_pos hany, Option.map_some'] at h
    have hg : g = sortByDate (entries.filter (inGroup aid)) := by
      injection h with h2
      exact h2.symm
    subst hg
    refine ⟨?_, sortByDate_sorted _, ?_⟩
    · intro hnil
      rw [List.any_eq_true] at hany
      obtain ⟨e, he, hcond⟩ := hany
      have : e ∈ sortByDate (entries.filter (inGroup aid)) :=
        (sortByDate_perm _).mem_iff.mpr (List.mem_filter.mpr ⟨he, hcond⟩)
      rw [hnil] at this
      cases this
    · intro c hc
      have hc' : c ∈ entries.filter (inGroup aid) := (sortByDate_perm _).mem_iff.mp hc
      rw [List.mem_filter] at hc'
      have hcond := hc'.2
      unfold inGroup at hcond
      rw [Bool.and_eq_true, decide_eq_true_eq] at hcond
      exact ⟨hcond.1, hcond.2, hc'.1⟩
  · simp only [Bool.not_eq_true] at hany
    rw [hany] at h
    simp at h

/-! ### Root-precedence invariant -/

/-- Propositional form of `repliesRooted`, convenient for induction:
every reply in the list has a root for its parent key among the entries
already emitted before it. -/
def RootedFrom (prior : List EntryWithThread) : List EntryWithThread → Prop
  | [] => True
  | x :: xs =>
      (x.isCommentThread = true →
        ∃ aid, parentKeyOf x = some aid ∧ ∃ r ∈ prior, isRootFor r aid = true) ∧
      RootedFrom (prior ++ [x]) xs

theorem rootedFrom_mono (l : List EntryWithThread) :
    ∀ p₁ p₂ : List EntryWithThread, (∀ r, r ∈ p₁ → r ∈ p₂) →
      RootedFrom p₁ l → RootedFrom p₂ l := by
  induction l with
  | nil => intro _ _ _ _; trivial
  | cons x xs ih =>
      intro p₁ p₂ hsub h
      obtain ⟨h1, h2⟩ := h
      refine ⟨?_, ih (p₁ ++ [x]) (p₂ ++ [x]) ?_ h2⟩
      · intro hc
        obtain ⟨aid, hpk, r, hr, hroot⟩ := h1 hc
        exact ⟨aid, hpk, r, hsub r hr, hroot⟩
      · intro r hr
        rw [List.mem_append] at hr ⊢
        rcases hr with hr | hr
        · exact Or.inl (hsub r hr)
        · exact Or.inr hr

theorem rootedFrom_append (p a b : List EntryWithThread) :
    RootedFrom p (a ++ b) ↔ RootedFrom p a ∧ RootedFrom (p ++ a) b := by
  induction a generalizing p with
  | nil =>
      show RootedFrom p b ↔ True ∧ RootedFrom (p ++ []) b
      rw [List.append_nil]
      exact ⟨fun h => ⟨trivial, h⟩, fun h => h.2⟩
  | cons x xs ih =>
      show RootedFrom p (x :: (xs ++ b)) ↔ _
      constructor
      · rintro ⟨h1, h2⟩
        rw [ih] at h2
        refine ⟨⟨h1, h2.1⟩, ?_⟩
        have := h2.2
        rwa [List.append_assoc, List.singleton_append] at this
      · rintro ⟨⟨h1, h2⟩, h3⟩
        refine ⟨h1, (ih (p ++ [x])).mpr ⟨h2, ?_⟩⟩
        rwa [List.append_assoc, List.singleton_append]

theorem rootedFrom_of_common_root {prior : List EntryWithThread} {r₀ : EntryWithThread}
    (hr : r₀ ∈ prior) {l : List EntryWithThread}
    (h : ∀ x ∈ l, x.isCommentThread = true →
        ∃ aid, parentKeyOf x = some aid ∧ isRootFor r₀ aid = true) :
    RootedFrom prior l := by
  induction l generalizing prior with
  | nil => trivial
  | cons x xs ih =>
      refine ⟨?_, ih (List.mem_append_left _ hr)
        (fun y hy hyc => h y (List.mem_cons_of_mem x hy) hyc)⟩
      intro hc
      obtain ⟨aid, hpk, hroot⟩ := h x (List.mem_cons_self x xs) hc
      exact ⟨aid, hpk, r₀, hr, hroot⟩

theorem repliesRooted_of_rootedFrom (l : List EntryWithThread) :
    ∀ prior : List EntryWithThread, RootedFrom prior l → repliesRooted prior l = true := by
  induction l with
  | nil => intro _ _; rfl
  | cons x xs ih =>
      intro prior h
      obtain ⟨h1, h2⟩ := h
      unfold repliesRooted
      rw [Bool.and_eq_true]
      refine ⟨?_, ih _ h2⟩
      by_cases hc : x.isCommentThread = true
      · obtain ⟨aid, hpk, r, hr, hroot⟩ := h1 hc
        rw [hc, if_pos rfl, hpk]
        exact List.any_eq_true.mpr ⟨r, hr, hroot⟩
      · simp only [Bool.not_eq_true] at hc
        simp [hc]

theorem primaryBlock_rooted (entries : List RssEntry) (e : RssEntry)
    (prior : List EntryWithThread) :
    RootedFrom prior (primaryBlock (sortedCommentMap entries) e) := by
  unfold primaryBlock
  cases ha : getRedditArticleId e.link with
  | none =>
      exact ⟨fun hc => by simp [plainEntry] at hc, trivial⟩
  | some aid =>
      refine ⟨fun hc => by simp [plainEntry] at hc, ?_⟩
      cases hg : lookupAssoc (sortedCommentMap entries) aid with
      | none =>
          show RootedFrom _ ((Option.getD none []).map threadEntry)
          exact trivial
      | some g =>
          apply @rootedFrom_of_common_root _ (plainEntry e)
            (List.mem_append_right _ (List.mem_singleton.mpr rfl))
          intro x hx hxc
          rw [List.mem_map] at hx
          obtain ⟨c, hc, rfl⟩ := hx
          obtain ⟨_, _, hfacts⟩ := mem_group_facts hg
          obtain ⟨hpid, _, _⟩ := hfacts c hc
          refine ⟨aid, hpid, ?_⟩
          unfold isRootFor
          simp [plainEntry, parentKeyOf, ha]

theorem primaryResult_rooted (entries : List RssEntry) (non : List RssEntry)
    (prior : List EntryWithThread) :
    RootedFrom prior (primaryResult (sortedCommentMap entries) non) := by
  unfold primaryResult
  induction non generalizing prior with
  | nil => trivial
  | cons e es ih =>
      rw [List.map_cons, List.flatten_cons, rootedFrom_append]
      exact ⟨primaryBlock_rooted entries e prior, ih _⟩

theorem orphanBlock_rooted (listName : String) (og : OrphanGroup)
    (prior : List EntryWithThread)
    (hpar : ∀ c ∈ og.comments, getRedditArticleId c.link = some og.articleId) :
    RootedFrom prior (orphanBlock listName og) := by
  unfold orphanBlock
  refine ⟨fun hc => by simp [mkDummyParent] at hc, ?_⟩
  apply @rootedFrom_of_common_root _
    (mkDummyParent listName og.articleId og.comments)
    (List.mem_append_right _ (List.mem_singleton.mpr rfl))
  intro x hx _
  rw [List.mem_map] at hx
  obtain ⟨c, hc, rfl⟩ := hx
  refine ⟨og.articleId, hpar c hc, ?_⟩
  unfold isRootFor
  simp [mkDummyParent]

theorem orphanGroups_facts {entries : List RssEntry} {pids : List String}
    {og : OrphanGroup}
    (hog : og ∈ orphanGroups (sortedCommentMap entries) pids) :
    og.comments ≠ [] ∧ List.Sorted dateGE og.comments ∧
      og.newestDate = newestOf og.comments ∧ og.articleId ∉ pids ∧
      ∀ c ∈ og.comments, getRedditArticleId c.link = some og.articleId ∧
        isRedditComment c.link = true ∧ c ∈ entries := by
  unfold orphanGroups at hog
  have hog' := (List.perm_insertionSort orphanGE _).mem_iff.mp hog
  rw [List.mem_map] at hog'
  obtain ⟨aid, haid, hrec⟩ := hog'
  rw [List.mem_filter] at haid
  have hsome : (lookupAssoc (sortedCommentMap entries) aid).isSome = true := by
    rw [lookupAssoc_isSome_iff_mem_keys]
    exact haid.1
  obtain ⟨g, hg⟩ := Option.isSome_iff_exists.mp hsome
  obtain ⟨hne, hsort, hfacts⟩ := mem_group_facts hg
  rw [hg] at hrec
  subst hrec
  refine ⟨hne, hsort, rfl, of_decide_eq_true haid.2, fun c hc => hfacts c hc⟩

theorem orphanGroups_sorted (cm : List (String × List RssEntry)) (pids : List String) :
    List.Sorted orphanGE (orphanGroups cm pids) :=
  List.sorted_insertionSort orphanGE _

/-! ### Merge-loop structure -/

theorem emitUntil_append (newest : Int) (res : List EntryWithThread) :
    res = (emitUntil newest res).1 ++ (emitUntil newest res).2 := by
  induction res with
  | nil => rfl
  | cons r rs ih =>
      unfold emitUntil
      by_cases h : newest > getEntryDate r.toRssEntry
      · simp [h]
      · simp only [h, if_false]
        exact congrArg (r :: ·) ih

theorem mergeLoop_perm (listName : String) (res : List EntryWithThread)
    (ogs : List OrphanGroup) :
    (mergeLoop listName res ogs).Perm
      (res ++ (ogs.map (orphanBlock listName)).flatten) := by
  induction ogs generalizing res with
  | nil => simp [mergeLoop]
  | cons og ogs ih =>
      show ((emitUntil og.newestDate res).1 ++ orphanBlock listName og ++
        mergeLoop listName (emitUntil og.newestDate res).2 ogs).Perm _
      have h1 := (List.Perm.refl
        ((emitUntil og.newestDate res).1 ++ orphanBlock listName og)).append
        (ih (emitUntil og.newestDate res).2)
      apply h1.trans
      rw [List.map_cons, List.flatten_cons]
      have hsplit := emitUntil_append og.newestDate res
      have hre : res ++ (orphanBlock listName og ++
            (List.map (orphanBlock listName) ogs).flatten) =
          ((emitUntil og.newestDate res).1 ++ (emitUntil og.newestDate res).2) ++
            (orphanBlock listName og ++ (List.map (orphanBlock listName) ogs).flatten) := by
        rw [← hsplit]
      rw [hre]
      simp only [List.append_assoc]
      apply List.Perm.append_left
      rw [← List.append_assoc, ← List.append_assoc]
      exact List.Perm.append_right _ List.perm_append_comm

/-! ### Adjacency of replies -/

theorem pairOrdered_of_left (x y : EntryWithThread) (h : x.isCommentThread = false) :
    pairOrdered x y = true := by
  unfold pairOrdered
  simp [h]

theorem pairOrdered_of_right (x y : EntryWithThread) (h : y.isCommentThread = false) :
    pairOrdered x y = true := by
  unfold pairOrdered
  simp [h]

theorem adjacent_append (a b : List EntryWithThread)
    (ha : adjacentRepliesOrdered a = true) (hb : adjacentRepliesOrdered b = true)
    (hbd : ∀ x, a.getLast? = some x → ∀ y, b.head? = some y → pairOrdered x y = true) :
    adjacentRepliesOrdered (a ++ b) = true := by
  induction a with
  | nil => simpa using hb
  | cons x xs ih =>
      cases xs with
      | nil =>
          cases b with
          | nil => simpa using ha
          | cons y ys =>
              show adjacentRepliesOrdered (x :: y :: ys) = true
              unfold adjacentRepliesOrdered
              rw [Bool.and_eq_true]
              exact ⟨hbd x rfl y rfl, hb⟩
      | cons x2 xs2 =>
          unfold adjacentRepliesOrdered at ha
          rw [Bool.and_eq_true] at ha
          show adjacentRepliesOrdered (x :: x2 :: (xs2 ++ b)) = true
          unfold adjacentRepliesOrdered
          rw [Bool.and_eq_true]
          refine ⟨ha.1, ih ha.2 ?_⟩
          intro z hz y hy
          apply hbd z _ y hy
          rw [List.getLast?_cons_cons]
          exact hz

theorem adjacent_of_append_left (a b : List EntryWithThread)
    (h : adjacentRepliesOrdered (a ++ b) = true) : adjacentRepliesOrdered a = true := by
  induction a with
  | nil => rfl
  | cons x xs ih =>
      cases xs with
      | nil => rfl
      | cons x2 xs2 =>
          rw [List.cons_append, List.cons_append] at h
          unfold adjacentRepliesOrdered at h
          rw [Bool.and_eq_true] at h
          have h2 := ih (by rw [List.cons_append]; exact h.2)
          unfold adjacentRepliesOrdered
          rw [Bool.and_eq_true]
          exact ⟨h.1, h2⟩

theorem adjacent_of_append_right (a b : List EntryWithThread)
    (h : adjacentRepliesOrdered (a ++ b) = true) : adjacentRepliesOrdered b = true := by
  induction a with
  | nil => simpa using h
  | cons x xs ih =>
      apply ih
      cases hxs : xs ++ b with
      | nil => rfl
      | cons z zs =>
          rw [List.cons_append, hxs] at h
          unfold adjacentRepliesOrdered at h
          rw [Bool.and_eq_true] at h
          exact h.2

theorem threadList_adjacent (l : List RssEntry) (hsort : List.Sorted dateGE l) :
    adjacentRepliesOrdered (l.map threadEntry) = true := by
  induction l with
  | nil => rfl
  | cons c cs ih =>
      cases cs with
      | nil => rfl
      | cons c2 cs2 =>
          rw [List.sorted_cons] at hsort
          show adjacentRepliesOrdered
            (threadEntry c :: threadEntry c2 :: (cs2.map threadEntry)) = true
          unfold adjacentRepliesOrdered
          rw [Bool.and_eq_true]
          refine ⟨?_, ih hsort.2⟩
          have hd : getEntryDate c2 ≤ getEntryDate c :=
            hsort.1 c2 (List.mem_cons_self c2 cs2)
          unfold pairOrdered
          by_cases hpk : parentKeyOf (threadEntry c) = parentKeyOf (threadEntry c2)
          · simp [threadEntry, hpk, hd]
          · simp [threadEntry, hpk, hd]

/-! ### Primary-emission facts -/

theorem primaryBlock_head (cm : List (String × List RssEntry)) (e : RssEntry) :
    (primaryBlock cm e).head? = some (plainEntry e) := by
  unfold primaryBlock
  cases getRedditArticleId e.link <;> rfl

theorem primaryBlock_mem_facts (entries : List RssEntry) (e : RssEntry)
    {x : EntryWithThread} (hx : x ∈ primaryBlock (sortedCommentMap entries) e) :
    x = plainEntry e ∨ (x.isCommentThread = true ∧ x.isDummyParent = false ∧
      ∃ aid, getRedditArticleId e.link = some aid ∧ parentKeyOf x = some aid ∧
        x.toRssEntry ∈ entries ∧ isRedditComment x.toRssEntry.link = true) := by
  unfold primaryBlock at hx
  cases ha : getRedditArticleId e.link with
  | none =>
      rw [ha] at hx
      exact Or.inl (List.mem_singleton.mp hx)
  | some aid =>
      rw [ha] at hx
      rcases List.mem_cons.mp hx with h | h
      · exact Or.inl h
      · right
        rw [List.mem_map] at h
        obtain ⟨c, hc, rfl⟩ := h
        cases hg : lookupAssoc (sortedCommentMap entries) aid with
        | none =>
            rw [hg] at hc
            cases hc
        | some g =>
            rw [hg] at hc
            obtain ⟨_, _, hfacts⟩ := mem_group_facts hg
            obtain ⟨hpid, hcom, hmem⟩ := hfacts c hc
            exact ⟨rfl, rfl, aid, rfl, hpid, hmem, hcom⟩

theorem primaryBlock_adjacent (entries : List RssEntry) (e : RssEntry) :
    adjacentRepliesOrdered (primaryBlock (sortedCommentMap entries) e) = true := by
  unfold primaryBlock
  cases ha : getRedditArticleId e.link with
  | none => rfl
  | some aid =>
      show adjacentRepliesOrdered (plainEntry e ::
        ((lookupAssoc (sortedCommentMap entries) aid).getD []).map threadEntry) = true
      cases hg : lookupAssoc (sortedCommentMap entries) aid with
      | none => rfl
      | some g =>
          show adjacentRepliesOrdered (plainEntry e :: g.map threadEntry) = true
          have hadj := threadList_adjacent g (mem_group_facts hg).2.1
          apply adjacent_append [plainEntry e] (g.map threadEntry) rfl hadj
          intro z hz y _
          apply pairOrdered_of_left
          have hze : z = plainEntry e := by
            simp only [List.getLast?_singleton, Option.some.injEq] at hz
            exact hz.symm
          rw [hze]
          rfl

theorem primaryResult_head (cm : List (String × List RssEntry)) (non : List RssEntry)
    {y : EntryWithThread} (hy : (primaryResult cm non).head? = some y) :
    y.isCommentThread = false ∧ y.isDummyParent = false := by
  cases non with
  | nil => cases hy
  | cons e es =>
      unfold primaryResult at hy
      rw [List.map_cons, List.flatten_cons, List.head?_append, primaryBlock_head] at hy
      have hye : y = plainEntry e := by
        simp only [Option.or, Option.some.injEq] at hy
        exact hy.symm
      rw [hye]
      exact ⟨rfl, rfl⟩

theorem primaryResult_adjacent (entries : List RssEntry) (non : List RssEntry) :
    adjacentRepliesOrdered (primaryResult (sortedCommentMap entries) non) = true := by
  unfold primaryResult
  induction non with
  | nil => rfl
  | cons e es ih =>
      rw [List.map_cons, List.flatten_cons]
      apply adjacent_append _ _ (primaryBlock_adjacent entries e) ih
      intro z _ y hy
      apply pairOrdered_of_right
      exact (primaryResult_head (sortedCommentMap entries) es hy).1

theorem primaryResult_no_dummy (entries : List RssEntry) (non : List RssEntry)
    {x : EntryWithThread} (hx : x ∈ primaryResult (sortedCommentMap entries) non) :
    x.isDummyParent = false := by
  unfold primaryResult at hx
  rw [List.mem_flatten] at hx
  obtain ⟨bl, hbl, hxbl⟩ := hx
  rw [List.mem_map] at hbl
  obtain ⟨e, _, rfl⟩ := hbl
  rcases primaryBlock_mem_facts entries e hxbl with h | h
  · rw [h]
    rfl
  · exact h.2.1

theorem primaryResult_parents (entries : List RssEntry) (non : List RssEntry)
    {x : EntryWithThread} (hx : x ∈ primaryResult (sortedCommentMap entries) non)
    (hc : x.isCommentThread = true) :
    ∃ aid, parentKeyOf x = some aid ∧ aid ∈ processedArticleIds non := by
  unfold primaryResult at hx
  rw [List.mem_flatten] at hx
  obtain ⟨bl, hbl, hxbl⟩ := hx
  rw [List.mem_map] at hbl
  obtain ⟨e, he, rfl⟩ := hbl
  rcases primaryBlock_mem_facts entries e hxbl with h | h
  · rw [h] at hc
    cases hc
  · obtain ⟨_, _, aid, hea, hpk, _, _⟩ := h
    exact ⟨aid, hpk, List.mem_filterMap.mpr ⟨e, he, hea⟩⟩

/-! ### Merge-loop preservation lemmas -/

theorem mergeLoop_sublist (listName : String) (ogs : List OrphanGroup) :
    ∀ res : List EntryWithThread, res.Sublist (mergeLoop listName res ogs) := by
  induction ogs with
  | nil => intro res; exact List.Sublist.refl res
  | cons og ogs ih =>
      intro res
      show res.Sublist ((emitUntil og.newestDate res).1 ++ orphanBlock listName og ++
        mergeLoop listName (emitUntil og.newestDate res).2 ogs)
      rw [List.append_assoc]
      nth_rewrite 1 [emitUntil_append og.newestDate res]
      exact List.Sublist.append (List.Sublist.refl _)
        ((ih (emitUntil og.newestDate res).2).trans
          (List.sublist_append_right (orphanBlock listName og) _))

theorem mergeLoop_block_infix (listName : String) (ogs : List OrphanGroup) :
    ∀ (res : List EntryWithThread) {og : OrphanGroup}, og ∈ ogs →
      orphanBlock listName og <:+: mergeLoop listName res ogs := by
  induction ogs with
  | nil =>
      intro _ _ h
      cases h
  | cons og' ogs ih =>
      intro res og hog
      show _ <:+: (emitUntil og'.newestDate res).1 ++ orphanBlock listName og' ++
        mergeLoop listName (emitUntil og'.newestDate res).2 ogs
      rcases List.mem_cons.mp hog with h | h
      · subst h
        exact List.infix_append _ _ _
      · exact (ih _ h).trans ((List.suffix_append _ _).isInfix)

theorem mergeLoop_mem {listName : String} {res : List EntryWithThread}
    {ogs : List OrphanGroup} {x : EntryWithThread}
    (hx : x ∈ mergeLoop listName res ogs) :
    x ∈ res ∨ ∃ og ∈ ogs, x ∈ orphanBlock listName og := by
  have hmem := (mergeLoop_perm listName res ogs).mem_iff.mp hx
  rw [List.mem_append, List.mem_flatten] at hmem
  rcases hmem with h | h
  · exact Or.inl h
  · obtain ⟨bl, hbl, hxbl⟩ := h
    rw [List.mem_map] at hbl
    obtain ⟨og, hog, rfl⟩ := hbl
    exact Or.inr ⟨og, hog, hxbl⟩

theorem mergeLoop_head (listName : String) (ogs : List OrphanGroup) :
    ∀ (res : List EntryWithThread) {x : EntryWithThread},
      (mergeLoop listName res ogs).head? = some x →
      x ∈ res ∨ x.isCommentThread = false := by
  induction ogs with
  | nil =>
      intro res x h
      exact Or.inl (List.mem_of_mem_head? h)
  | cons og ogs ih =>
      intro res x h
      have h2 : ((emitUntil og.newestDate res).1 ++ (orphanBlock listName og ++
          mergeLoop listName (emitUntil og.newestDate res).2 ogs)).head? = some x := by
        rw [← List.append_assoc]
        exact h
      rw [List.head?_append] at h2
      cases hp : (emitUntil og.newestDate res).1.head? with
      | some z =>
          rw [hp] at h2
          simp only [Option.or, Option.some.injEq] at h2
          have hz : z ∈ (emitUntil og.newestDate res).1 := List.mem_of_mem_head? hp
          refine Or.inl ?_
          rw [emitUntil_append og.newestDate res]
          exact List.mem_append_left _ (h2 ▸ hz)
      | none =>
          rw [hp] at h2
          simp only [Option.or] at h2
          rw [List.head?_append] at h2
          have hb : (orphanBlock listName og).head? =
              some (mkDummyParent listName og.articleId og.comments) := rfl
          rw [hb] at h2
          simp only [Option.or, Option.some.injEq] at h2
          right
          rw [← h2]
          rfl

theorem pairOrdered_of_ne_parent (x y : EntryWithThread) {a b : String}
    (hx : parentKeyOf x = some a) (hy : parentKeyOf y = some b) (hab : a ≠ b) :
    pairOrdered x y = true := by
  unfold pairOrdered
  have : ¬ (parentKeyOf x = parentKeyOf y) := by
    rw [hx, hy]
    intro hc
    exact hab (Option.some.injEq a b ▸ hc)
  simp [this]

theorem orphanBlock_adjacent (listName : String) (og : OrphanGroup)
    (hsort : List.Sorted dateGE og.comments) :
    adjacentRepliesOrdered (orphanBlock listName og) = true := by
  unfold orphanBlock
  apply adjacent_append [mkDummyParent listName og.articleId og.comments]
    (og.comments.map threadEntry) rfl (threadList_adjacent _ hsort)
  intro z hz y _
  apply pairOrdered_of_left
  have hze : z = mkDummyParent listName og.articleId og.comments := by
    simp only [List.getLast?_singleton, Option.some.injEq] at hz
    exact hz.symm
  rw [hze]
  rfl

theorem mem_of_getLast?_eq {α : Type} {l : List α} {a : α}
    (h : l.getLast? = some a) : a ∈ l := by
  induction l with
  | nil => cases h
  | cons x xs ih =>
      cases xs with
      | nil =>
          simp only [List.getLast?_singleton, Option.some.injEq] at h
          rw [h]
          exact List.mem_singleton_self a
      | cons y ys =>
          rw [List.getLast?_cons_cons] at h
          exact List.mem_cons_of_mem x (ih h)

theorem orphanBlock_getLast {listName : String} {og : OrphanGroup}
    (hne : og.comments ≠ []) {z : EntryWithThread}
    (hz : (orphanBlock listName og).getLast? = some z) :
    z.isCommentThread = true ∧ parentKeyOf z = parentKeyOf z ∧
      ∃ c ∈ og.comments, z = threadEntry c := by
  cases hc : og.comments with
  | nil => exact absurd hc hne
  | cons c cs =>
      unfold orphanBlock at hz
      rw [hc, List.map_cons, List.getLast?_cons_cons] at hz
      have hzmem : z ∈ threadEntry c :: cs.map threadEntry := by
        cases hzz : (threadEntry c :: cs.map threadEntry).getLast? with
        | none => rw [hzz] at hz; cases hz
        | some w =>
            rw [hzz] at hz
            cases hz
            exact mem_of_getLast?_eq hzz
      rcases List.mem_cons.mp hzmem with h | h
      · exact ⟨by rw [h]; rfl, rfl, c, List.mem_cons_self c cs, h⟩
      · rw [List.mem_map] at h
        obtain ⟨c2, hc2, rfl⟩ := h
        exact ⟨rfl, rfl, c2, List.mem_cons_of_mem c hc2, rfl⟩

theorem mergeLoop_adjacent (listName : String) (ogs : List OrphanGroup)
    (pids : List String)
    (hogs : ∀ og ∈ ogs, og.comments ≠ [] ∧ List.Sorted dateGE og.comments ∧
      og.articleId ∉ pids ∧
      ∀ c ∈ og.comments, getRedditArticleId c.link = some og.articleId) :
    ∀ res : List EntryWithThread,
      adjacentRepliesOrdered res = true →
      (∀ x ∈ res, x.isCommentThread = true →
        ∃ aid, parentKeyOf x = some aid ∧ aid ∈ pids) →
      adjacentRepliesOrdered (mergeLoop listName res ogs) = true := by
  induction ogs with
  | nil =>
      intro res h _
      exact h
  | cons og ogs ih =>
      intro res hadj hpar
      obtain ⟨hne, hsort, hnp, hcpar⟩ := hogs og (List.mem_cons_self og ogs)
      show adjacentRepliesOrdered ((emitUntil og.newestDate res).1 ++
        orphanBlock listName og ++
        mergeLoop listName (emitUntil og.newestDate res).2 ogs) = true
      rw [List.append_assoc]
      have hsplit := emitUntil_append og.newestDate res
      have hadj' : adjacentRepliesOrdered ((emitUntil og.newestDate res).1 ++
          (emitUntil og.newestDate res).2) = true := by
        rw [← hsplit]
        exact hadj
      have hparq : ∀ x ∈ (emitUntil og.newestDate res).2, x.isCommentThread = true →
          ∃ aid, parentKeyOf x = some aid ∧ aid ∈ pids := by
        intro x hx
        apply hpar
        rw [hsplit]
        exact List.mem_append_right _ hx
      apply adjacent_append
      · exact adjacent_of_append_left _ _ hadj'
      · apply adjacent_append
        · exact orphanBlock_adjacent listName og hsort
        · exact ih (fun og' hog' => hogs og' (List.mem_cons_of_mem og hog'))
            (emitUntil og.newestDate res).2 (adjacent_of_append_right _ _ hadj') hparq
        · intro z hz y hy
          obtain ⟨hzc, _, c, hcmem, hzc2⟩ := orphanBlock_getLast hne hz
          rcases mergeLoop_head listName ogs (emitUntil og.newestDate res).2 hy with h | h
          · by_cases hyc : y.isCommentThread = true
            · obtain ⟨aid, hya, haidp⟩ := hparq y h hyc
              apply @pairOrdered_of_ne_parent z y og.articleId aid ?_ hya ?_
              · rw [hzc2]
                exact hcpar c hcmem
              · intro hcontra
                exact hnp (hcontra ▸ haidp)
            · simp only [Bool.not_eq_true] at hyc
              exact pairOrdered_of_right z y hyc
          · exact pairOrdered_of_right z y h
      · intro z _ y hy
        apply pairOrdered_of_right
        have hyb : ((orphanBlock listName og ++
            mergeLoop listName (emitUntil og.newestDate res).2 ogs).head?) = some y := hy
        rw [List.head?_append] at hyb
        have hb : (orphanBlock listName og).head? =
            some (mkDummyParent listName og.articleId og.comments) := rfl
        rw [hb] at hyb
        simp only [Option.or, Option.some.injEq] at hyb
        rw [← hyb]
        rfl

theorem mergeLoop_rooted (listName : String) (ogs : List OrphanGroup)
    (hogs : ∀ og ∈ ogs, ∀ c ∈ og.comments, getRedditArticleId c.link = some og.articleId) :
    ∀ (res prior : List EntryWithThread), RootedFrom prior res →
      RootedFrom prior (mergeLoop listName res ogs) := by
  induction ogs with
  | nil =>
      intro res prior h
      exact h
  | cons og ogs ih =>
      intro res prior h
      show RootedFrom prior ((emitUntil og.newestDate res).1 ++ orphanBlock listName og ++
        mergeLoop listName (emitUntil og.newestDate res).2 ogs)
      rw [List.append_assoc, rootedFrom_append]
      have hsplit := emitUntil_append og.newestDate res
      have h' : RootedFrom prior ((emitUntil og.newestDate res).1 ++
          (emitUntil og.newestDate res).2) := by
        rw [← hsplit]
        exact h
      rw [rootedFrom_append] at h'
      refine ⟨h'.1, ?_⟩
      rw [rootedFrom_append]
      refine ⟨orphanBlock_rooted listName og _
        (hogs og (List.mem_cons_self og ogs)), ?_⟩
      apply ih (fun og' hog' => hogs og' (List.mem_cons_of_mem og hog'))
      apply rootedFrom_mono _ _ _ _ h'.2
      intro r hr
      exact List.mem_append_left _ hr

/-! ### Synthetic-timestamp order -/

theorem synthDates_append_nodummy (a : List EntryWithThread)
    (ha : ∀ x ∈ a, x.isDummyParent = false) (b : List EntryWithThread) :
    synthDates (a ++ b) = synthDates b := by
  induction a with
  | nil => rfl
  | cons x xs ih =>
      have hx : x.isDummyParent = false := ha x (List.mem_cons_self x xs)
      have ih2 := ih (fun y hy => ha y (List.mem_cons_of_mem x hy))
      rw [List.cons_append]
      cases hxs : xs ++ b with
      | nil =>
          obtain ⟨hxs1, hxs2⟩ := List.append_eq_nil.mp hxs
          rw [hxs2]
          rfl
      | cons z zs =>
          show (if x.isDummyParent then [getEntryDate z.toRssEntry] else []) ++
            synthDates (z :: zs) = synthDates b
          rw [hx]
          simp only [Bool.false_eq_true, if_false, List.nil_append]
          rw [← hxs, ih2]

theorem synthDates_block (listName : String) (og : OrphanGroup)
    (hne : og.comments ≠ []) (M : List EntryWithThread) :
    synthDates (orphanBlock listName og ++ M) =
      newestOf og.comments :: synthDates (og.comments.map threadEntry ++ M) := by
  cases hc : og.comments with
  | nil => exact absurd hc hne
  | cons c cs =>
      unfold orphanBlock
      rw [hc]
      rfl

theorem mergeLoop_synthDates (listName : String) (ogs : List OrphanGroup)
    (hogs : ∀ og ∈ ogs, og.comments ≠ [] ∧ og.newestDate = newestOf og.comments) :
    ∀ res : List EntryWithThread, (∀ x ∈ res, x.isDummyParent = false) →
      synthDates (mergeLoop listName res ogs) = ogs.map OrphanGroup.newestDate := by
  induction ogs with
  | nil =>
      intro res hres
      show synthDates res = []
      have := synthDates_append_nodummy res hres []
      rwa [List.append_nil] at this
  | cons og ogs ih =>
      intro res hres
      obtain ⟨hne, hnd⟩ := hogs og (List.mem_cons_self og ogs)
      show synthDates ((emitUntil og.newestDate res).1 ++ orphanBlock listName og ++
        mergeLoop listName (emitUntil og.newestDate res).2 ogs) =
        (og :: ogs).map OrphanGroup.newestDate
      have hp : ∀ x ∈ (emitUntil og.newestDate res).1, x.isDummyParent = false := by
        intro x hx
        apply hres
        rw [emitUntil_append og.newestDate res]
        exact List.mem_append_left _ hx
      have hq : ∀ x ∈ (emitUntil og.newestDate res).2, x.isDummyParent = false := by
        intro x hx
        apply hres
        rw [emitUntil_append og.newestDate res]
        exact List.mem_append_right _ hx
      rw [List.append_assoc, synthDates_append_nodummy _ hp,
        synthDates_block listName og hne]
      have hthread : ∀ x ∈ og.comments.map threadEntry, x.isDummyParent = false := by
        intro x hx
        rw [List.mem_map] at hx
        obtain ⟨c, _, rfl⟩ := hx
        rfl
      rw [synthDates_append_nodummy _ hthread,
        ih (fun og2 hog2 => hogs og2 (List.mem_cons_of_mem og hog2)) _ hq,
        List.map_cons, hnd]

theorem chainDesc_of_sorted (ogs : List OrphanGroup)
    (h : List.Sorted orphanGE ogs) :
    chainDesc (ogs.map OrphanGroup.newestDate) = true := by
  induction ogs with
  | nil => rfl
  | cons og ogs ih =>
      rw [List.sorted_cons] at h
      cases ogs with
      | nil => rfl
      | cons og2 ogs2 =>
          show chainDesc (og.newestDate :: og2.newestDate ::
            (ogs2.map OrphanGroup.newestDate)) = true
          unfold chainDesc
          rw [Bool.and_eq_true]
          exact ⟨decide_eq_true (h.1 og2 (List.mem_cons_self og2 ogs2)), ih h.2⟩

/-! ### Placeholder counting -/

theorem orphanBlock_countP_dummy (listName : String) (og : OrphanGroup) :
    (orphanBlock listName og).countP (fun x => x.isDummyParent) = 1 := by
  unfold orphanBlock
  rw [List.countP_cons]
  have h0 : (og.comments.map threadEntry).countP (fun x => x.isDummyParent) = 0 := by
    rw [List.countP_eq_zero]
    intro x hx
    rw [List.mem_map] at hx
    obtain ⟨c, _, rfl⟩ := hx
    simp [threadEntry]
  rw [h0]
  rfl

/-! ## Claim theorems for the CommentThreader -/

/-- C1 (amended): in the CommentThreader output every reply-flagged entry
appears strictly after a root for its parent key — a real root entry or
the synthesized placeholder — and within one thread adjacent replies are
WEAKLY descending by timestamp.  The original claim's STRICT descent
fails on equal-timestamp replies, which keep their stable input order
(see the tie counterexample). -/
theorem thread_order (entries : List RssEntry) (listName : String) :
    repliesRooted [] (groupCommentsUnderArticles entries listName) = true ∧
      adjacentRepliesOrdered (groupCommentsUnderArticles entries listName) = true := by
  constructor
  · apply repliesRooted_of_rootedFrom
    show RootedFrom [] (mergeLoop listName
      (primaryResult (sortedCommentMap entries) (sortedNonComments entries))
      (orphanGroups (sortedCommentMap entries)
        (processedArticleIds (sortedNonComments entries))))
    apply mergeLoop_rooted
    · intro og hog c hc
      exact ((orphanGroups_facts hog).2.2.2.2 c hc).1
    · exact primaryResult_rooted entries _ []
  · show adjacentRepliesOrdered (mergeLoop listName
      (primaryResult (sortedCommentMap entries) (sortedNonComments entries))
      (orphanGroups (sortedCommentMap entries)
        (processedArticleIds (sortedNonComments entries)))) = true
    apply mergeLoop_adjacent listName _
      (processedArticleIds (sortedNonComments entries))
    · intro og hog
      obtain ⟨h1, h2, h3, h4, h5⟩ := orphanGroups_facts hog
      exact ⟨h1, h2, h4, fun c hc => (h5 c hc).1⟩
    · exact primaryResult_adjacent entries _
    · intro x hx hc
      exact primaryResult_parents entries _ hx hc

theorem sum_map_one {α : Type} (l : List α) :
    (l.map (fun _ => (1 : Nat))).sum = l.length := by
  induction l with
  | nil => rfl
  | cons x xs ih => simp [ih, Nat.add_comm]

theorem groupComments_dummy_count (entries : List RssEntry) (listName : String) :
    (groupCommentsUnderArticles entries listName).countP
        (fun x => x.isDummyParent) =
      (orphanGroups (sortedCommentMap entries)
        (processedArticleIds (sortedNonComments entries))).length := by
  show (mergeLoop listName
      (primaryResult (sortedCommentMap entries) (sortedNonComments entries))
      (orphanGroups (sortedCommentMap entries)
        (processedArticleIds (sortedNonComments entries)))).countP
      (fun x => x.isDummyParent) = _
  rw [List.Perm.countP_eq _ (mergeLoop_perm listName _ _), List.countP_append]
  have h0 : (primaryResult (sortedCommentMap entries)
      (sortedNonComments entries)).countP (fun x => x.isDummyParent) = 0 := by
    rw [List.countP_eq_zero]
    intro x hx
    simp [primaryResult_no_dummy entries _ hx]
  rw [h0, Nat.zero_add, List.countP_flatten, List.map_map]
  have h1 : ((orphanGroups (sortedCommentMap entries)
      (processedArticleIds (sortedNonComments entries))).map
      (List.countP (fun x => x.isDummyParent) ∘ orphanBlock listName)) =
      (orphanGroups (sortedCommentMap entries)
        (processedArticleIds (sortedNonComments entries))).map
        (fun _ => (1 : Nat)) := by
    apply List.map_congr_left
    intro og _
    exact orphanBlock_countP_dummy listName og
  rw [h1, sum_map_one]

theorem groupComments_synthDates (entries : List RssEntry) (listName : String) :
    synthDates (groupCommentsUnderArticles entries listName) =
      (orphanGroups (sortedCommentMap entries)
        (processedArticleIds (sortedNonComments entries))).map
        OrphanGroup.newestDate := by
  show synthDates (mergeLoop listName
      (primaryResult (sortedCommentMap entries) (sortedNonComments entries))
      (orphanGroups (sortedCommentMap entries)
        (processedArticleIds (sortedNonComments entries)))) = _
  apply mergeLoop_synthDates
  · intro og hog
    obtain ⟨h1, h2, h3, h4, h5⟩ := orphanGroups_facts hog
    exact ⟨h1, h3⟩
  · intro x hx
    exact primaryResult_no_dummy entries _ hx

/-- C2 (amended): the CommentThreader emits exactly one synthesized
placeholder per orphan group (the `countP` conjunct); each orphan
group's whole block — the placeholder immediately followed by ALL of
that group's replies in descending (newest-first) date order, which is
`orphanBlock` with `Sorted dateGE` comments — appears contiguously in
the output (the infix conjunct); the entry right after each placeholder
carries the group's synthetic timestamp, the newest reply's (the
`synthDates` conjunct), and those synthetic timestamps occur in
descending order across placeholders; in the concrete scenario — orphan
reply C (parent `xyz`, t=90) with real root D (t=70) — the output is
exactly [placeholder, C, D].  Global descending order over ALL root
timestamps (real and synthetic together) is NOT preserved in general
(see the root-order counterexample): the merge splices each placeholder
block by comparing against every entry's own date, replies included. -/
theorem orphan_placeholder_merge :
    (∀ (entries : List RssEntry) (listName : String),
      (groupCommentsUnderArticles entries listName).countP
          (fun x => x.isDummyParent) =
        (orphanGroups (sortedCommentMap entries)
          (processedArticleIds (sortedNonComments entries))).length ∧
      synthDates (groupCommentsUnderArticles entries listName) =
        (orphanGroups (sortedCommentMap entries)
          (processedArticleIds (sortedNonComments entries))).map
          OrphanGroup.newestDate ∧
      chainDesc ((orphanGroups (sortedCommentMap entries)
        (processedArticleIds (sortedNonComments entries))).map
        OrphanGroup.newestDate) = true ∧
      ∀ og ∈ orphanGroups (sortedCommentMap entries)
          (processedArticleIds (sortedNonComments entries)),
        List.Sorted dateGE og.comments ∧
          orphanBlock listName og <:+:
            groupCommentsUnderArticles entries listName) ∧
    groupCommentsUnderArticles [orphanReply, plainD] "To Process" =
      [mkDummyParent "To Process" "xyz" [orphanReply], threadEntry orphanReply,
        plainEntry plainD] := by
  refine ⟨fun entries listName => ⟨groupComments_dummy_count entries listName,
    groupComments_synthDates entries listName,
    chainDesc_of_sorted _ (orphanGroups_sorted _ _), fun og hog => ?_⟩, by decide⟩
  refine ⟨(orphanGroups_facts hog).2.1, ?_⟩
  show orphanBlock listName og <:+: mergeLoop listName
    (primaryResult (sortedCommentMap entries) (sortedNonComments entries))
    (orphanGroups (sortedCommentMap entries)
      (processedArticleIds (sortedNonComments entries)))
  exact mergeLoop_block_infix listName _ _ hog

/-- The orphan group of scenario C: parent `xyz`, the single reply C,
synthetic timestamp 90. -/
def orphanGroupXyz : OrphanGroup :=
  { articleId := "xyz", comments := [orphanReply], newestDate := 90 }

/-- C2 witness: the placeholder-block contiguity conjunct applied to the
concrete scenario-C orphan group, its membership hypothesis evaluated. -/
theorem orphan_placeholder_merge_witness :
    orphanGroupXyz ∈ orphanGroups (sortedCommentMap [orphanReply, plainD])
        (processedArticleIds (sortedNonComments [orphanReply, plainD])) ∧
      (List.Sorted dateGE orphanGroupXyz.comments ∧
        orphanBlock "To Process" orphanGroupXyz <:+:
          groupCommentsUnderArticles [orphanReply, plainD] "To Process") :=
  ⟨by decide,
    (orphan_placeholder_merge.1 [orphanReply, plainD] "To Process").2.2.2
      orphanGroupXyz (by decide)⟩

/-! ## Reply-shaped links without an extractable article id (C9) -/

/-- A reply-shaped link (it contains both `reddit.com` and `/c/`) from
which `getRedditArticleId` extracts nothing: there is no
`/comments/<id>` segment. -/
def weirdReply : RssEntry := mkScenarioEntry "https://reddit.com/c/weird" 42

/-- C9: an entry whose link is reply-shaped (`isRedditComment` holds) but
from which no structural parent id can be extracted
(`getRedditArticleId` yields `none`) is routed to the main
(non-comment) sequence and emitted in the output as a plain root entry,
with no flags; the pipeline is total, so no error is raised. -/
theorem reply_shaped_no_id_degrades (entries : List RssEntry)
    (listName : String) (e : RssEntry) (he : e ∈ entries)
    (hshape : isRedditComment e.link = true)
    (hid : getRedditArticleId e.link = none) :
    e ∈ sortedNonComments entries ∧
      plainEntry e ∈ groupCommentsUnderArticles entries listName := by
  have hmain : isMainEntry e = true := by
    unfold isMainEntry
    rw [hid]
  have hnon : e ∈ sortedNonComments entries := by
    unfold sortedNonComments
    rw [(sortByDate_perm _).mem_iff, firstPass_non_char]
    exact List.mem_filter.mpr ⟨he, hmain⟩
  refine ⟨hnon, ?_⟩
  show plainEntry e ∈ mergeLoop listName
    (primaryResult (sortedCommentMap entries) (sortedNonComments entries))
    (orphanGroups (sortedCommentMap entries)
      (processedArticleIds (sortedNonComments entries)))
  rw [(mergeLoop_perm listName _ _).mem_iff]
  apply List.mem_append_left
  unfold primaryResult
  rw [List.mem_flatten]
  refine ⟨primaryBlock (sortedCommentMap entries) e,
    List.mem_map.mpr ⟨e, hnon, rfl⟩, ?_⟩
  unfold primaryBlock
  rw [hid]
  exact List.mem_singleton.mpr rfl

/-- C9 witness: the degradation applied to a concrete entry whose link
contains `reddit.com` and `/c/` but no `/comments/` segment. -/
theorem reply_shaped_no_id_degrades_witness :
    weirdReply ∈ [weirdReply] ∧ isRedditComment weirdReply.link = true ∧
      getRedditArticleId weirdReply.link = none ∧
      (weirdReply ∈ sortedNonComments [weirdReply] ∧
        plainEntry weirdReply ∈
          groupCommentsUnderArticles [weirdReply] "To Process") :=
  ⟨List.mem_singleton.mpr rfl, by decide, by decide,
    reply_shaped_no_id_degrades [weirdReply] "To Process" weirdReply
      (List.mem_singleton.mpr rfl) (by decide) (by decide)⟩

/-! ## Status-bucket classification (`categorizeEntriesFromSource`) -/

/-- The three categorized, threaded lists returned to the UI. -/
structure CategorizedEntries : Type where
  toProcess : List EntryWithThread
  processed : List EntryWithThread
  ignored : List EntryWithThread
deriving DecidableEq, Repr

/-- One step of the categorization loop: dispatch on the stored status of
the entry id.  The `default` arm of the source's `switch` routes to the
`toProcess` bucket. -/
def categorizeStep (states : List (String × EntryStatus))
    (acc : List RssEntry × List RssEntry × List RssEntry) (entry : RssEntry) :
    List RssEntry × List RssEntry × List RssEntry :=
  match getEntryStatus states entry.id with
  | EntryStatus.processed => (acc.1, acc.2.1 ++ [entry], acc.2.2)
  | EntryStatus.ignored => (acc.1, acc.2.1, acc.2.2 ++ [entry])
  | EntryStatus.to_process => (acc.1 ++ [entry], acc.2.1, acc.2.2)

/-- The three status buckets (toProcess, processed, ignored) built by the
loop of `categorizeEntriesFromSource`. -/
def statusBuckets (states : List (String × EntryStatus))
    (entries : List RssEntry) :
    List RssEntry × List RssEntry × List RssEntry :=
  entries.foldl (categorizeStep states) ([], [], [])

/-- `categorizeEntriesFromSource` (the localStorage read of
`getEntryStatus` is modelled by the explicit `states` map). -/
def categorizeEntriesFromSource (entries : List RssEntry)
    (crossPostDescriptions : List String)
    (states : List (String × EntryStatus)) : CategorizedEntries :=
  let buckets := statusBuckets states entries
  { toProcess := sortWithGrouping buckets.1 crossPostDescriptions "To Process",
    processed := sortWithGrouping buckets.2.1 crossPostDescriptions "Done",
    ignored := sortWithGrouping buckets.2.2 crossPostDescriptions "Ignored" }

theorem categorize_foldl (states : List (String × EntryStatus))
    (l : List RssEntry) :
    ∀ acc : List RssEntry × List RssEntry × List RssEntry,
      l.foldl (categorizeStep states) acc =
        (acc.1 ++ l.filter
            (fun e => decide (getEntryStatus states e.id = EntryStatus.to_process)),
         acc.2.1 ++ l.filter
            (fun e => decide (getEntryStatus states e.id = EntryStatus.processed)),
         acc.2.2 ++ l.filter
            (fun e => decide (getEntryStatus states e.id = EntryStatus.ignored))) := by
  induction l with
  | nil =>
      intro acc
      simp
  | cons e es ih =>
      intro acc
      rw [List.foldl_cons]
      cases hs : getEntryStatus states e.id with
      | to_process =>
          have hstep : categorizeStep states acc e =
              (acc.1 ++ [e], acc.2.1, acc.2.2) := by
            unfold categorizeStep
            rw [hs]
          rw [hstep, ih]
          simp [List.filter_cons, hs, List.append_assoc]
      | processed =>
          have hstep : categorizeStep states acc e =
              (acc.1, acc.2.1 ++ [e], acc.2.2) := by
            unfold categorizeStep
            rw [hs]
          rw [hstep, ih]
          simp [List.filter_cons, hs, List.append_assoc]
      | ignored =>
          have hstep : categorizeStep states acc e =
              (acc.1, acc.2.1, acc.2.2 ++ [e]) := by
            unfold categorizeStep
            rw [hs]
          rw [hstep, ih]
          simp [List.filter_cons, hs, List.append_assoc]

theorem filter_three_perm {α : Type} (p1 p2 p3 : α → Bool)
    (h : ∀ a, (p1 a = true ∧ p2 a = false ∧ p3 a = false) ∨
      (p1 a = false ∧ p2 a = true ∧ p3 a = false) ∨
      (p1 a = false ∧ p2 a = false ∧ p3 a = true)) :
    ∀ l : List α, (l.filter p1 ++ l.filter p2 ++ l.filter p3).Perm l := by
  intro l
  induction l with
  | nil => rfl
  | cons a l ih =>
      have e1t : p1 a = true → (a :: l).filter p1 = a :: l.filter p1 := by
        intro hp
        simp [List.filter_cons, hp]
      have e1f : p1 a = false → (a :: l).filter p1 = l.filter p1 := by
        intro hp
        simp [List.filter_cons, hp]
      have e2t : p2 a = true → (a :: l).filter p2 = a :: l.filter p2 := by
        intro hp
        simp [List.filter_cons, hp]
      have e2f : p2 a = false → (a :: l).filter p2 = l.filter p2 := by
        intro hp
        simp [List.filter_cons, hp]
      have e3t : p3 a = true → (a :: l).filter p3 = a :: l.filter p3 := by
        intro hp
        simp [List.filter_cons, hp]
      have e3f : p3 a = false → (a :: l).filter p3 = l.filter p3 := by
        intro hp
        simp [List.filter_cons, hp]
      rcases h a with ⟨h1, h2, h3⟩ | ⟨h1, h2, h3⟩ | ⟨h1, h2, h3⟩
      · rw [e1t h1, e2f h2, e3f h3, List.cons_append, List.cons_append]
        exact ih.cons a
      · rw [e1f h1, e2t h2, e3f h3]
        have hshape : (l.filter p1 ++ (a :: l.filter p2) ++ l.filter p3) =
            l.filter p1 ++ a :: (l.filter p2 ++ l.filter p3) := by
          simp [List.append_assoc]
        rw [hshape]
        have ih2 : (l.filter p1 ++ (l.filter p2 ++ l.filter p3)).Perm l := by
          rw [← List.append_assoc]
          exact ih
        exact List.perm_middle.trans (ih2.cons a)
      · rw [e1f h1, e2f h2, e3t h3]
        exact List.perm_middle.trans (ih.cons a)

theorem not_mem_filter_of_false {α : Type} {p : α → Bool} {l : List α} {a : α}
    (h : p a = false) : a ∉ l.filter p := by
  intro hmem
  have h2 := (List.mem_filter.mp hmem).2
  rw [h] at h2
  exact Bool.false_ne_true h2

/-- C6: the categorization loop partitions its input: the three status
buckets concatenate to a permutation of the input (no entry dropped, no
entry duplicated), and every input entry belongs to exactly one of the
three buckets — the one named by the stored status of its id. -/
theorem bucket_partition (entries : List RssEntry)
    (states : List (String × EntryStatus)) :
    ((statusBuckets states entries).1 ++ (statusBuckets states entries).2.1 ++
      (statusBuckets states entries).2.2).Perm entries ∧
    ∀ e ∈ entries,
      (e ∈ (statusBuckets states entries).1 ∧
        e ∉ (statusBuckets states entries).2.1 ∧
        e ∉ (statusBuckets states entries).2.2) ∨
      (e ∉ (statusBuckets states entries).1 ∧
        e ∈ (statusBuckets states entries).2.1 ∧
        e ∉ (statusBuckets states entries).2.2) ∨
      (e ∉ (statusBuckets states entries).1 ∧
        e ∉ (statusBuckets states entries).2.1 ∧
        e ∈ (statusBuckets states entries).2.2) := by
  have hb : statusBuckets states entries =
      (entries.filter
        (fun e => decide (getEntryStatus states e.id = EntryStatus.to_process)),
       entries.filter
        (fun e => decide (getEntryStatus states e.id = EntryStatus.processed)),
       entries.filter
        (fun e => decide (getEntryStatus states e.id = EntryStatus.ignored))) := by
    unfold statusBuckets
    rw [categorize_foldl]
    simp
  have htri : ∀ a : RssEntry,
      (decide (getEntryStatus states a.id = EntryStatus.to_process) = true ∧
        decide (getEntryStatus states a.id = EntryStatus.processed) = false ∧
        decide (getEntryStatus states a.id = EntryStatus.ignored) = false) ∨
      (decide (getEntryStatus states a.id = EntryStatus.to_process) = false ∧
        decide (getEntryStatus states a.id = EntryStatus.processed) = true ∧
        decide (getEntryStatus states a.id = EntryStatus.ignored) = false) ∨
      (decide (getEntryStatus states a.id = EntryStatus.to_process) = false ∧
        decide (getEntryStatus states a.id = EntryStatus.processed) = false ∧
        decide (getEntryStatus states a.id = EntryStatus.ignored) = true) := by
    intro a
    cases hs : getEntryStatus states a.id with
    | to_process => refine Or.inl ⟨?_, ?_, ?_⟩ <;> simp [hs]
    | processed => refine Or.inr (Or.inl ⟨?_, ?_, ?_⟩) <;> simp [hs]
    | ignored => refine Or.inr (Or.inr ⟨?_, ?_, ?_⟩) <;> simp [hs]
  rw [hb]
  constructor
  · exact filter_three_perm _ _ _ htri entries
  · intro e he
    rcases htri e with ⟨h1, h2, h3⟩ | ⟨h1, h2, h3⟩ | ⟨h1, h2, h3⟩
    · exact Or.inl ⟨List.mem_filter.mpr ⟨he, h1⟩,
        not_mem_filter_of_false h2, not_mem_filter_of_false h3⟩
    · exact Or.inr (Or.inl ⟨not_mem_filter_of_false h1,
        List.mem_filter.mpr ⟨he, h2⟩, not_mem_filter_of_false h3⟩)
    · exact Or.inr (Or.inr ⟨not_mem_filter_of_false h1,
        not_mem_filter_of_false h2, List.mem_filter.mpr ⟨he, h3⟩⟩)

/-- C6 witness: the exactly-one-bucket property applied to a concrete
entry with no stored status (it lands in the toProcess bucket). -/
theorem bucket_partition_witness :
    rootAbc ∈ ([rootAbc] : List RssEntry) ∧
      ((rootAbc ∈ (statusBuckets [] [rootAbc]).1 ∧
          rootAbc ∉ (statusBuckets [] [rootAbc]).2.1 ∧
          rootAbc ∉ (statusBuckets [] [rootAbc]).2.2) ∨
        (rootAbc ∉ (statusBuckets [] [rootAbc]).1 ∧
          rootAbc ∈ (statusBuckets [] [rootAbc]).2.1 ∧
          rootAbc ∉ (statusBuckets [] [rootAbc]).2.2) ∨
        (rootAbc ∉ (statusBuckets [] [rootAbc]).1 ∧
          rootAbc ∉ (statusBuckets [] [rootAbc]).2.1 ∧
          rootAbc ∈ (statusBuckets [] [rootAbc]).2.2)) :=
  ⟨List.mem_singleton.mpr rfl,
    (bucket_partition [rootAbc] []).2 rootAbc (List.mem_singleton.mpr rfl)⟩
